import Mathlib

/-!
# zix ring buffer (`src/ring.c`): shallow embedding and verified properties

The C code works on `uint32_t` indices.  They are embedded as natural numbers,
and every C operator that can wrap is embedded with an explicit reduction
modulo `2 ^ 32`.  Bytes are natural numbers, a block of memory is a list of
bytes.  Memory barriers have no sequential meaning and are dropped.
-/

namespace Zix

/-! ## Machine arithmetic -/

/-- The C expression `a + b` on `uint32_t` operands. -/
def add32 (a b : Nat) : Nat := (a + b) % 4294967296

/-- The C expression `a - b` on `uint32_t` operands (wraps below zero). -/
def sub32 (a b : Nat) : Nat := (a + 4294967296 - b) % 4294967296

/-! ## Memory -/

/-- The C call `memcpy(&dst[d], &src[s], n)`: byte `i` of the source window
goes to byte `i` of the destination window, for `i < n`. -/
def memcpy (dst : List Nat) (d : Nat) (src : List Nat) (s : Nat) : Nat → List Nat
  | 0 => dst
  | n + 1 => (memcpy dst d src s n).set (d + n) (src.getD (s + n) 0)

/-- Modelled from the spec: the allocator collaborator of section 6, whose
header is not part of the sources.  Only its `malloc` hook is used by the ring.
`malloc n = none` is a failed allocation; `malloc n = some f` is a fresh block
of `n` bytes whose (indeterminate) contents are `f 0, ..., f (n - 1)`. -/
structure ZixAllocator where
  malloc : Nat → Option (Nat → Nat)

/-- Modelled from the spec: `zix_malloc(allocator, size)`, the block returned by
the allocator hook, or `none` when the allocation fails. -/
def zix_malloc (allocator : ZixAllocator) (size : Nat) : Option (List Nat) :=
  (allocator.malloc size).map (fun f => (List.range size).map f)

/-- An allocator that always succeeds and hands out zeroed memory. -/
def zeroAllocator : ZixAllocator := ⟨fun _ => some (fun _ => 0)⟩

/-! ## The ring -/

/-- The record `struct ZixRingImpl` (the `allocator` field only matters to
`zix_ring_free` and is left out). -/
structure ZixRing where
  write_head : Nat
  read_head : Nat
  size : Nat
  size_mask : Nat
  buf : List Nat
deriving DecidableEq, Repr

/-- The value of `sizeof(ZixRing)` on an LP64 target. -/
def sizeof_ZixRing : Nat := 32

/-- The function `next_power_of_two` of `ring.c`. -/
def next_power_of_two (size : Nat) : Nat :=
  let size := sub32 size 1
  let size := size ||| (size >>> 1)
  let size := size ||| (size >>> 2)
  let size := size ||| (size >>> 4)
  let size := size ||| (size >>> 8)
  let size := size ||| (size >>> 16)
  add32 size 1

/-- The function `zix_ring_new`; `none` is the `NULL` result. -/
def zix_ring_new (allocator : ZixAllocator) (size : Nat) : Option ZixRing :=
  match zix_malloc allocator sizeof_ZixRing with
  | none => none
  | some _ =>
    let sz := next_power_of_two size
    let mask := sub32 sz 1
    match zix_malloc allocator sz with
    | none => none
    | some b =>
      some { write_head := 0, read_head := 0, size := sz, size_mask := mask, buf := b }

/-- The function `zix_ring_reset`. -/
def zix_ring_reset (ring : ZixRing) : ZixRing :=
  { ring with write_head := 0, read_head := 0 }

/-- The function `read_space_internal`. -/
def read_space_internal (ring : ZixRing) (r w : Nat) : Nat :=
  if r < w then sub32 w r
  else (add32 (sub32 w r) ring.size) &&& ring.size_mask

/-- The function `zix_ring_read_space`. -/
def zix_ring_read_space (ring : ZixRing) : Nat :=
  read_space_internal ring ring.read_head ring.write_head

/-- The function `write_space_internal`. -/
def write_space_internal (ring : ZixRing) (r w : Nat) : Nat :=
  if r = w then sub32 ring.size 1
  else if r < w then sub32 ((add32 (sub32 r w) ring.size) &&& ring.size_mask) 1
  else sub32 (sub32 r w) 1

/-- The function `zix_ring_write_space`. -/
def zix_ring_write_space (ring : ZixRing) : Nat :=
  write_space_internal ring ring.read_head ring.write_head

/-- The function `zix_ring_capacity`. -/
def zix_ring_capacity (ring : ZixRing) : Nat :=
  sub32 ring.size 1

/-- The function `peek_internal`: the returned count and the contents of `dst`
after the call. -/
def peek_internal (ring : ZixRing) (r w size : Nat) (dst : List Nat) : Nat × List Nat :=
  if read_space_internal ring r w < size then (0, dst)
  else if add32 r size < ring.size then (size, memcpy dst 0 ring.buf r size)
  else
    let first_size := sub32 ring.size r
    let dst1 := memcpy dst 0 ring.buf r first_size
    (size, memcpy dst1 first_size ring.buf 0 (sub32 size first_size))

/-- What a consumer-side call leaves behind: the ring, the caller's `dst`
block, and the returned count. -/
structure ReadResult where
  ring : ZixRing
  dst : List Nat
  ret : Nat
deriving DecidableEq, Repr

/-- What `zix_ring_skip` and `zix_ring_write` leave behind: the ring and the
returned count. -/
structure RingResult where
  ring : ZixRing
  ret : Nat
deriving DecidableEq, Repr

/-- The function `zix_ring_peek`. -/
def zix_ring_peek (ring : ZixRing) (dst : List Nat) (size : Nat) : ReadResult :=
  let r := ring.read_head
  let w := ring.write_head
  let p := peek_internal ring r w size dst
  { ring := ring, dst := p.2, ret := p.1 }

/-- The function `zix_ring_read`. -/
def zix_ring_read (ring : ZixRing) (dst : List Nat) (size : Nat) : ReadResult :=
  let r := ring.read_head
  let w := ring.write_head
  let p := peek_internal ring r w size dst
  if p.1 ≠ 0 then
    { ring := { ring with read_head := (add32 r size) &&& ring.size_mask }, dst := p.2, ret := size }
  else
    { ring := ring, dst := p.2, ret := 0 }

/-- The function `zix_ring_skip`. -/
def zix_ring_skip (ring : ZixRing) (size : Nat) : RingResult :=
  let r := ring.read_head
  let w := ring.write_head
  if read_space_internal ring r w < size then { ring := ring, ret := 0 }
  else { ring := { ring with read_head := (add32 r size) &&& ring.size_mask }, ret := size }

/-- The function `zix_ring_write`. -/
def zix_ring_write (ring : ZixRing) (src : List Nat) (size : Nat) : RingResult :=
  let r := ring.read_head
  let w := ring.write_head
  if write_space_internal ring r w < size then { ring := ring, ret := 0 }
  else if add32 w size ≤ ring.size then
    { ring := { ring with buf := memcpy ring.buf w src 0 size,
                          write_head := (add32 w size) &&& ring.size_mask },
      ret := size }
  else
    let this_size := sub32 ring.size w
    let b1 := memcpy ring.buf w src 0 this_size
    { ring := { ring with buf := memcpy b1 0 src this_size (sub32 size this_size),
                          write_head := sub32 size this_size },
      ret := size }

/-! ## Well-formed rings -/

/-- The ring invariant: `size` is a power of two that fits `uint32_t`,
`size_mask = size - 1`, both heads are below `size`. -/
def WellFormed (ring : ZixRing) : Prop :=
  (∃ k < 32, ring.size = 2 ^ k) ∧ ring.size_mask = ring.size - 1 ∧
    ring.read_head < ring.size ∧ ring.write_head < ring.size

instance (ring : ZixRing) : Decidable (WellFormed ring) := by
  unfold WellFormed; infer_instance

/-- A well-formed ring whose buffer really has `size` bytes. -/
def Allocated (ring : ZixRing) : Prop :=
  WellFormed ring ∧ ring.buf.length = ring.size

instance (ring : ZixRing) : Decidable (Allocated ring) := by
  unfold Allocated; infer_instance

/-- The unread bytes of a ring, oldest first: `buf[(read_head + i) mod size]`
for `i` below the read space. -/
def content (ring : ZixRing) : List Nat :=
  (List.range (zix_ring_read_space ring)).map
    (fun i => ring.buf.getD ((ring.read_head + i) % ring.size) 0)

/-- A ring of size 8 holding the five bytes 15, 16, 17, 10, 11 across the end
of its buffer. -/
def sampleRing : ZixRing := ⟨2, 5, 8, 7, [10, 11, 12, 13, 14, 15, 16, 17]⟩

/-! ## Sequential sessions -/

/-- One call of a sequential client: the caller's block and the requested
number of bytes. -/
inductive RingOp where
  | write (src : List Nat) (n : Nat)
  | read (dst : List Nat) (n : Nat)
deriving DecidableEq, Repr

/-- The caller's side of the contract: the block passed to `zix_ring_write` or
`zix_ring_read` holds at least the requested number of bytes. -/
def RingOp.Valid : RingOp → Prop
  | .write src n => n ≤ src.length
  | .read dst n => n ≤ dst.length

instance (op : RingOp) : Decidable op.Valid := by
  cases op <;> unfold RingOp.Valid <;> infer_instance

/-- A ring together with the bytes its successful writes have accepted and the
bytes its successful reads have copied out, both in call order. -/
structure Session where
  ring : ZixRing
  accepted : List Nat
  delivered : List Nat
deriving DecidableEq, Repr

/-- Perform one call and record the bytes it moved (none when it returns 0). -/
def Session.step (s : Session) : RingOp → Session
  | .write src n =>
    let res := zix_ring_write s.ring src n
    { ring := res.ring, accepted := s.accepted ++ src.take res.ret, delivered := s.delivered }
  | .read dst n =>
    let res := zix_ring_read s.ring dst n
    { ring := res.ring, accepted := s.accepted, delivered := s.delivered ++ res.dst.take res.ret }

/-- Perform a sequence of calls, one after another, on a ring. -/
def Session.run (ring : ZixRing) (ops : List RingOp) : Session :=
  ops.foldl Session.step { ring := ring, accepted := [], delivered := [] }

/-- A session with a refused write, a wrapping write and a wrapping read. -/
def sampleOps : List RingOp :=
  [.write [1, 2, 3, 4, 5] 5, .read [0, 0, 0, 0] 4, .write [6, 7, 8, 9, 10, 11, 12] 7,
    .write [6, 7, 8, 9, 10, 11] 6, .read [0, 0, 0, 0, 0, 0, 0, 0] 8,
    .read [0, 0, 0, 0, 0, 0, 0] 7]

/-! ## B-tree iterators (`include/zix/btree.h`) -/

/-- The constant `ZIX_BTREE_MAX_HEIGHT`. -/
def ZIX_BTREE_MAX_HEIGHT : Nat := 6

/-- The record `ZixBTreeIter`.  A node pointer is `none` when it is `NULL` and
`some a` when it points at the node at address `a`. -/
structure ZixBTreeIter where
  nodes : Fin ZIX_BTREE_MAX_HEIGHT → Option Nat
  indexes : Fin ZIX_BTREE_MAX_HEIGHT → Nat
  level : Nat

/-- The constant `zix_btree_end_iter`: every slot zeroed. -/
def zix_btree_end_iter : ZixBTreeIter :=
  { nodes := fun _ => none, indexes := fun _ => 0, level := 0 }

/-- The function `zix_btree_iter_is_end`: `i.level == 0 && !i.nodes[0]`. -/
def zix_btree_iter_is_end (i : ZixBTreeIter) : Bool :=
  i.level == 0 && (i.nodes ⟨0, by decide⟩).isNone

/-- An iterator that is not at the end: it stands on key 3 of a root node. -/
def sampleIter : ZixBTreeIter :=
  { nodes := fun k => if k.val = 0 then some 4096 else none,
    indexes := fun k => if k.val = 0 then 3 else 0, level := 0 }

/-- An end iterator whose unused slots hold stale data. -/
def strayEndIter : ZixBTreeIter :=
  { nodes := fun k => if k.val = 0 then none else some 4096,
    indexes := fun _ => 7, level := 0 }

/-- The ring `zix_ring_new` returns for a request of 5 to 8 bytes from an
allocator handing out zeroed memory. -/
def freshRing : ZixRing := ⟨0, 0, 8, 7, [0, 0, 0, 0, 0, 0, 0, 0]⟩

/-! ## Memory accesses -/

/-- One `memcpy` call of the ring code: where it starts in `ring->buf`, where it
starts in the caller's block (`src` or `dst`), and how many bytes it moves. -/
structure Copy where
  ringOff : Nat
  userOff : Nat
  len : Nat
deriving DecidableEq, Repr

/-- The `memcpy` calls of `peek_internal`, in order: none when the space check
fails, one without wrap, two with wrap. -/
def peek_internal_copies (ring : ZixRing) (r w size : Nat) : List Copy :=
  if read_space_internal ring r w < size then []
  else if add32 r size < ring.size then [⟨r, 0, size⟩]
  else
    let first_size := sub32 ring.size r
    [⟨r, 0, first_size⟩, ⟨0, first_size, sub32 size first_size⟩]

/-- The `memcpy` calls of `zix_ring_write`, in order: none when the space check
fails, one without wrap, two with wrap. -/
def zix_ring_write_copies (ring : ZixRing) (size : Nat) : List Copy :=
  let r := ring.read_head
  let w := ring.write_head
  if write_space_internal ring r w < size then []
  else if add32 w size ≤ ring.size then [⟨w, 0, size⟩]
  else
    let this_size := sub32 ring.size w
    [⟨w, 0, this_size⟩, ⟨0, this_size, sub32 size this_size⟩]

/-- Perform copies out of the ring buffer into the caller's block. -/
def copyOut (buf : List Nat) (cs : List Copy) (dst : List Nat) : List Nat :=
  cs.foldl (fun d c => memcpy d c.userOff buf c.ringOff c.len) dst

/-- Perform copies out of the caller's block into the ring buffer. -/
def copyIn (src : List Nat) (cs : List Copy) (buf : List Nat) : List Nat :=
  cs.foldl (fun b c => memcpy b c.ringOff src c.userOff c.len) buf

/-- Every byte a copy touches lies inside the ring buffer of `ringSize` bytes
and inside the first `n` bytes of the caller's block. -/
def Copy.InBounds (c : Copy) (ringSize n : Nat) : Prop :=
  ∀ i < c.len, c.ringOff + i < ringSize ∧ c.userOff + i < n

instance (c : Copy) (ringSize n : Nat) : Decidable (c.InBounds ringSize n) := by
  unfold Copy.InBounds; infer_instance

/-! ## Arithmetic of well-formed rings -/

theorem WellFormed.bounds {ring : ZixRing} (h : WellFormed ring) :
    0 < ring.size ∧ ring.size ≤ 2147483648 ∧
      ring.read_head < ring.size ∧ ring.write_head < ring.size := by
  obtain ⟨⟨k, hk, hs⟩, -, hr, hw⟩ := h
  refine ⟨by rw [hs]; exact Nat.pos_pow_of_pos k (by decide), ?_, hr, hw⟩
  rw [hs]
  calc 2 ^ k ≤ 2 ^ 31 := Nat.pow_le_pow_right (by decide) (by omega)
    _ = 2147483648 := by norm_num

theorem WellFormed.land_mask {ring : ZixRing} (h : WellFormed ring) (x : Nat) :
    x &&& ring.size_mask = x % ring.size := by
  obtain ⟨⟨k, -, hs⟩, hm, -, -⟩ := h
  rw [hm, hs, Nat.and_pow_two_sub_one_eq_mod]

/-- Reduction modulo `S` of a number below `2 * S`. -/
theorem mod_lt_two_mul {a S : Nat} (h : a < 2 * S) :
    a % S = if a < S then a else a - S := by
  split
  · exact Nat.mod_eq_of_lt (by assumption)
  · rw [Nat.mod_eq_sub_mod (by omega), Nat.mod_eq_of_lt (by omega)]

/-- On a well-formed ring `read_space_internal` is the distance from the read
head forward to the write head. -/
theorem read_space_internal_eq {ring : ZixRing} (h : WellFormed ring) :
    read_space_internal ring ring.read_head ring.write_head =
      if ring.read_head ≤ ring.write_head then ring.write_head - ring.read_head
      else ring.write_head + ring.size - ring.read_head := by
  obtain ⟨h0, h31, hr, hw⟩ := h.bounds
  unfold read_space_internal
  rw [h.land_mask]
  unfold add32 sub32
  by_cases h1 : ring.read_head < ring.write_head
  · rw [if_pos h1, if_pos (by omega)]; omega
  · rw [if_neg h1]
    by_cases h2 : ring.read_head = ring.write_head
    · rw [if_pos (by omega), h2]
      have : (ring.write_head + 4294967296 - ring.write_head) % 4294967296 = 0 := by omega
      rw [this]
      have : (0 + ring.size) % 4294967296 = ring.size := by omega
      rw [this, Nat.mod_self]; omega
    · rw [if_neg (by omega)]
      have : ((ring.write_head + 4294967296 - ring.read_head) % 4294967296 + ring.size)
          % 4294967296 = ring.write_head + ring.size - ring.read_head := by omega
      rw [this]
      exact Nat.mod_eq_of_lt (by omega)

/-- On a well-formed ring `write_space_internal` is what `read_space_internal`
leaves of `size - 1`. -/
theorem write_space_internal_eq {ring : ZixRing} (h : WellFormed ring) :
    write_space_internal ring ring.read_head ring.write_head =
      if ring.read_head ≤ ring.write_head
      then ring.size - 1 - (ring.write_head - ring.read_head)
      else ring.read_head - ring.write_head - 1 := by
  obtain ⟨h0, h31, hr, hw⟩ := h.bounds
  unfold write_space_internal
  by_cases h2 : ring.read_head = ring.write_head
  · rw [if_pos h2, if_pos (by omega)]; unfold sub32; omega
  · rw [if_neg h2]
    by_cases h1 : ring.read_head < ring.write_head
    · rw [if_pos h1, if_pos (by omega), h.land_mask]
      unfold add32 sub32
      have : ((ring.read_head + 4294967296 - ring.write_head) % 4294967296 + ring.size)
          % 4294967296 = ring.read_head + ring.size - ring.write_head := by omega
      have hm : (ring.read_head + ring.size - ring.write_head) % ring.size =
          ring.read_head + ring.size - ring.write_head := Nat.mod_eq_of_lt (by omega)
      rw [this, hm]
      omega
    · rw [if_neg h1, if_neg (by omega)]; unfold sub32; omega

theorem read_space_eq {ring : ZixRing} (h : WellFormed ring) :
    zix_ring_read_space ring =
      if ring.read_head ≤ ring.write_head then ring.write_head - ring.read_head
      else ring.write_head + ring.size - ring.read_head :=
  read_space_internal_eq h

theorem write_space_eq {ring : ZixRing} (h : WellFormed ring) :
    zix_ring_write_space ring =
      if ring.read_head ≤ ring.write_head
      then ring.size - 1 - (ring.write_head - ring.read_head)
      else ring.read_head - ring.write_head - 1 :=
  write_space_internal_eq h

theorem capacity_eq {ring : ZixRing} (h : WellFormed ring) :
    zix_ring_capacity ring = ring.size - 1 := by
  obtain ⟨h0, h31, -, -⟩ := h.bounds
  unfold zix_ring_capacity sub32; omega

/-! ## Space queries -/

/-- C2: on every well-formed ring (size a power of two, `size_mask = size - 1`,
both heads below `size`) the read space and the write space add up to the
capacity, and the capacity is `size - 1`. -/
theorem space_sum_eq_capacity (ring : ZixRing) (h : WellFormed ring) :
    zix_ring_read_space ring + zix_ring_write_space ring = zix_ring_capacity ring ∧
      zix_ring_capacity ring = ring.size - 1 := by
  obtain ⟨h0, h31, hr, hw⟩ := h.bounds
  rw [read_space_eq h, write_space_eq h, capacity_eq h]
  refine ⟨?_, rfl⟩
  split <;> omega

theorem space_sum_eq_capacity_witness :
    WellFormed ⟨2, 5, 8, 7, [0, 0, 0, 0, 0, 0, 0, 0]⟩ ∧
      (zix_ring_read_space ⟨2, 5, 8, 7, [0, 0, 0, 0, 0, 0, 0, 0]⟩ +
          zix_ring_write_space ⟨2, 5, 8, 7, [0, 0, 0, 0, 0, 0, 0, 0]⟩ =
        zix_ring_capacity ⟨2, 5, 8, 7, [0, 0, 0, 0, 0, 0, 0, 0]⟩ ∧
      zix_ring_capacity ⟨2, 5, 8, 7, [0, 0, 0, 0, 0, 0, 0, 0]⟩ = 8 - 1) :=
  ⟨by decide, space_sum_eq_capacity _ (by decide)⟩

/-- C8: on every well-formed ring the read space is zero exactly when the two
heads coincide (empty), and the write space is zero exactly when the write head
is one step behind the read head modulo `size` (full). -/
theorem empty_iff_full_iff (ring : ZixRing) (h : WellFormed ring) :
    (zix_ring_read_space ring = 0 ↔ ring.read_head = ring.write_head) ∧
      (zix_ring_write_space ring = 0 ↔
        (ring.write_head + 1) % ring.size = ring.read_head) := by
  obtain ⟨h0, h31, hr, hw⟩ := h.bounds
  rw [read_space_eq h, write_space_eq h,
    mod_lt_two_mul (show ring.write_head + 1 < 2 * ring.size by omega)]
  constructor
  · split <;> omega
  · split <;> split <;> omega

theorem empty_iff_full_iff_witness :
    WellFormed ⟨4, 5, 8, 7, []⟩ ∧
      ((zix_ring_read_space ⟨4, 5, 8, 7, []⟩ = 0 ↔ 5 = 4) ∧
        (zix_ring_write_space ⟨4, 5, 8, 7, []⟩ = 0 ↔ (4 + 1) % 8 = 5)) :=
  ⟨by decide, empty_iff_full_iff ⟨4, 5, 8, 7, []⟩ (by decide)⟩

/-- C9: on every well-formed ring `zix_ring_read_space` is `(w - r) mod size`
(integer subtraction, non-negative remainder), and so is each of the two
branches of `read_space_internal`: `w - r` when `r < w`, and the wrapping
`(w - r + size) & size_mask` when `r >= w`. -/
theorem read_space_is_mod (ring : ZixRing) (h : WellFormed ring) :
    ((zix_ring_read_space ring : Nat) : Int) =
        ((ring.write_head : Int) - ring.read_head) % ring.size ∧
      (ring.read_head < ring.write_head →
        ((sub32 ring.write_head ring.read_head : Nat) : Int) =
          ((ring.write_head : Int) - ring.read_head) % ring.size) ∧
      (ring.write_head ≤ ring.read_head →
        (((add32 (sub32 ring.write_head ring.read_head) ring.size) &&& ring.size_mask : Nat)
            : Int) = ((ring.write_head : Int) - ring.read_head) % ring.size) := by
  obtain ⟨h0, h31, hr, hw⟩ := h.bounds
  have key : ((zix_ring_read_space ring : Nat) : Int) =
      ((ring.write_head : Int) - ring.read_head) % ring.size := by
    rw [read_space_eq h]
    split
    · rw [Int.emod_eq_of_lt (by omega) (by omega)]; omega
    · rw [← Int.add_emod_self, Int.emod_eq_of_lt (by omega) (by omega)]; omega
  refine ⟨key, fun hlt => ?_, fun hle => ?_⟩
  · rw [← key]; unfold zix_ring_read_space read_space_internal; rw [if_pos hlt]
  · rw [← key]; unfold zix_ring_read_space read_space_internal
    rw [if_neg (by omega)]

theorem read_space_is_mod_witness :
    WellFormed ⟨2, 5, 8, 7, []⟩ ∧
      (((zix_ring_read_space ⟨2, 5, 8, 7, []⟩ : Nat) : Int) = ((2 : Int) - 5) % 8) :=
  ⟨by decide, by simpa using (read_space_is_mod ⟨2, 5, 8, 7, []⟩ (by decide)).1⟩

/-- C10: on every well-formed ring `zix_ring_write_space` is
`size - 1 - ((w - r) mod size)`, whichever of the three branches of
`write_space_internal` is taken; and for `r < w` the masked term
`(r - w + size) & size_mask` is at least 1, so that subtracting 1 does not
wrap, and the branch yields `(size - (w - r)) - 1`. -/
theorem write_space_is_formula (ring : ZixRing) (h : WellFormed ring) :
    ((zix_ring_write_space ring : Nat) : Int) =
        (ring.size : Int) - 1 - (((ring.write_head : Int) - ring.read_head) % ring.size) ∧
      (ring.read_head < ring.write_head →
        1 ≤ (add32 (sub32 ring.read_head ring.write_head) ring.size) &&& ring.size_mask ∧
        sub32 ((add32 (sub32 ring.read_head ring.write_head) ring.size) &&& ring.size_mask) 1
          = (ring.size - (ring.write_head - ring.read_head)) - 1 ∧
        zix_ring_write_space ring = (ring.size - (ring.write_head - ring.read_head)) - 1) := by
  obtain ⟨h0, h31, hr, hw⟩ := h.bounds
  constructor
  · rw [write_space_eq h]
    split
    · rw [Int.emod_eq_of_lt (by omega) (by omega)]; omega
    · rw [← Int.add_emod_self, Int.emod_eq_of_lt (by omega) (by omega)]; omega
  · intro hlt
    have e : (add32 (sub32 ring.read_head ring.write_head) ring.size) &&& ring.size_mask =
        ring.size - (ring.write_head - ring.read_head) := by
      rw [h.land_mask]
      unfold add32 sub32
      have : ((ring.read_head + 4294967296 - ring.write_head) % 4294967296 + ring.size)
          % 4294967296 = ring.read_head + ring.size - ring.write_head := by omega
      rw [this, Nat.mod_eq_of_lt (by omega)]
      omega
    refine ⟨by rw [e]; omega, by rw [e]; unfold sub32; omega, ?_⟩
    rw [write_space_eq h, if_pos (by omega)]; omega

theorem write_space_is_formula_witness :
    WellFormed ⟨5, 2, 8, 7, []⟩ ∧
      (((zix_ring_write_space ⟨5, 2, 8, 7, []⟩ : Nat) : Int) =
        (8 : Int) - 1 - (((5 : Int) - 2) % 8)) :=
  ⟨by decide, by simpa using (write_space_is_formula ⟨5, 2, 8, 7, []⟩ (by decide)).1⟩

/-! ## Construction and reset -/

/-- One round of bit smearing doubles the window of source bits that each
result bit collects. -/
theorem smear_step (s x m : Nat)
    (hx : ∀ i, x.testBit i = true ↔ ∃ j < m, s.testBit (i + j) = true) :
    ∀ i, (x ||| x >>> m).testBit i = true ↔ ∃ j < 2 * m, s.testBit (i + j) = true := by
  intro i
  rw [Nat.testBit_or, Nat.testBit_shiftRight, Bool.or_eq_true, hx, hx]
  constructor
  · rintro (⟨j, hj, h⟩ | ⟨j, hj, h⟩)
    · exact ⟨j, by omega, h⟩
    · exact ⟨m + j, by omega, by rw [← h]; congr 1; omega⟩
  · rintro ⟨j, hj, h⟩
    by_cases hjm : j < m
    · exact Or.inl ⟨j, hjm, h⟩
    · exact Or.inr ⟨j - m, by omega, by rw [← h]; congr 1; omega⟩

/-- Five rounds of smearing (shifts 1, 2, 4, 8, 16) turn a 32-bit number into
the all-ones number of the same bit length. -/
theorem smear_eq (s a b c d : Nat) (hs : s < 4294967296)
    (ha : a = s ||| (s >>> 1)) (hb : b = a ||| (a >>> 2)) (hc : c = b ||| (b >>> 4))
    (hd : d = c ||| (c >>> 8)) :
    d ||| (d >>> 16) = 2 ^ s.size - 1 := by
  subst ha hb hc hd
  have h1 : ∀ i, s.testBit i = true ↔ ∃ j < 1, s.testBit (i + j) = true := by
    intro i
    constructor
    · intro h; exact ⟨0, by omega, h⟩
    · rintro ⟨j, hj, h⟩
      have : j = 0 := by omega
      subst this; exact h
  have h32 := smear_step s _ 16 (smear_step s _ 8 (smear_step s _ 4 (smear_step s _ 2
    (smear_step s s 1 h1))))
  apply Nat.eq_of_testBit_eq
  intro i
  rw [Nat.testBit_two_pow_sub_one]
  rw [Bool.eq_iff_iff, h32 i, decide_eq_true_iff, Nat.lt_size]
  constructor
  · rintro ⟨j, -, h⟩
    calc 2 ^ i ≤ 2 ^ (i + j) := Nat.pow_le_pow_right (by decide) (by omega)
      _ ≤ s := Nat.testBit_implies_ge h
  · intro h
    by_contra hne
    push_neg at hne
    have : s < 2 ^ i := by
      apply Nat.lt_pow_two_of_testBit
      intro k hk
      by_cases hk32 : k < i + 32
      · have := hne (k - i) (by omega)
        rw [show i + (k - i) = k by omega] at this
        simpa using this
      · apply Nat.testBit_lt_two_pow
        calc s < 2 ^ 32 := by norm_num; exact hs
          _ ≤ 2 ^ k := Nat.pow_le_pow_right (by decide) (by omega)
    omega

/-- Closed form of `next_power_of_two` on requests in `1 .. 2 ^ 31`. -/
theorem next_power_of_two_eq (n : Nat) (h1 : 1 ≤ n) (h2 : n ≤ 2147483648) :
    next_power_of_two n = 2 ^ (n - 1).size := by
  have hs : sub32 n 1 = n - 1 := by unfold sub32; omega
  have hsz : (n - 1).size ≤ 31 := Nat.size_le.mpr (by norm_num; omega)
  have hp : 2 ^ (n - 1).size ≤ 2147483648 :=
    calc 2 ^ (n - 1).size ≤ 2 ^ 31 := Nat.pow_le_pow_right (by decide) hsz
      _ = 2147483648 := by norm_num
  have hpos : 0 < 2 ^ (n - 1).size := Nat.pos_pow_of_pos _ (by decide)
  unfold next_power_of_two
  simp only []
  rw [smear_eq (n - 1) _ _ _ _ (by omega) (by rw [hs]) rfl rfl rfl]
  unfold add32
  omega

theorem next_power_of_two_log_le (n : Nat) (h2 : n ≤ 2147483648) : (n - 1).size < 32 := by
  have : (n - 1).size ≤ 31 := Nat.size_le.mpr (by norm_num; omega)
  omega

/-- What a ring returned by `zix_ring_new` looks like. -/
theorem zix_ring_new_some {allocator : ZixAllocator} {n : Nat} {ring : ZixRing}
    (h : zix_ring_new allocator n = some ring) :
    ring.write_head = 0 ∧ ring.read_head = 0 ∧ ring.size = next_power_of_two n ∧
      ring.size_mask = sub32 (next_power_of_two n) 1 ∧
      ring.buf.length = next_power_of_two n := by
  unfold zix_ring_new at h
  cases h1 : zix_malloc allocator sizeof_ZixRing with
  | none => rw [h1] at h; exact absurd h (by simp)
  | some blk =>
    rw [h1] at h
    simp only [] at h
    cases h2 : zix_malloc allocator (next_power_of_two n) with
    | none => rw [h2] at h; exact absurd h (by simp)
    | some b =>
      rw [h2] at h
      simp only [Option.some.injEq] at h
      subst h
      refine ⟨rfl, rfl, rfl, rfl, ?_⟩
      unfold zix_malloc at h2
      cases h3 : allocator.malloc (next_power_of_two n) with
      | none => rw [h3] at h2; exact absurd h2 (by simp)
      | some f =>
        rw [h3] at h2
        simp only [Option.map_some', Option.some.injEq] at h2
        rw [← h2]; simp

/-- The constructor succeeds as soon as the allocator grants its two requests. -/
theorem zix_ring_new_isSome (allocator : ZixAllocator) (n : Nat)
    (h1 : allocator.malloc sizeof_ZixRing ≠ none)
    (h2 : allocator.malloc (next_power_of_two n) ≠ none) :
    (zix_ring_new allocator n).isSome = true := by
  obtain ⟨f, hf⟩ := Option.ne_none_iff_exists'.mp h1
  obtain ⟨g, hg⟩ := Option.ne_none_iff_exists'.mp h2
  simp [zix_ring_new, zix_malloc, hf, hg]

/-- A ring returned by `zix_ring_new` for a request in `1 .. 2 ^ 31` is
well-formed and owns `size` bytes. -/
theorem zix_ring_new_allocated {allocator : ZixAllocator} {n : Nat} {ring : ZixRing}
    (h1 : 1 ≤ n) (h2 : n ≤ 2147483648) (h : zix_ring_new allocator n = some ring) :
    Allocated ring := by
  obtain ⟨hw, hr, hs, hm, hb⟩ := zix_ring_new_some h
  have hp := next_power_of_two_eq n h1 h2
  have hpos : 0 < 2 ^ (n - 1).size := Nat.pos_pow_of_pos _ (by decide)
  have hle : 2 ^ (n - 1).size ≤ 2147483648 :=
    calc 2 ^ (n - 1).size ≤ 2 ^ 31 :=
          Nat.pow_le_pow_right (by decide) (by have := next_power_of_two_log_le n h2; omega)
      _ = 2147483648 := by norm_num
  refine ⟨⟨⟨(n - 1).size, next_power_of_two_log_le n h2, by rw [hs, hp]⟩, ?_, ?_, ?_⟩,
    by rw [hb, hs]⟩
  · rw [hm, hs, hp]; unfold sub32; omega
  · rw [hr, hs, hp]; exact hpos
  · rw [hw, hs, hp]; exact hpos

/-- C6: for every request `n` in `1 .. 2 ^ 31`, `next_power_of_two n` is a power
of two, is at least `n`, is below every other power of two that is at least `n`,
and is `n` itself when `n` is a power of two; every ring `zix_ring_new` returns
has `size` equal to it, `size_mask` one less, and capacity one less; and
`zix_ring_new` does return a ring when the allocator grants both requests. -/
theorem next_power_of_two_least (n : Nat) (h1 : 1 ≤ n) (h2 : n ≤ 2 ^ 31) :
    (∃ k, next_power_of_two n = 2 ^ k) ∧ n ≤ next_power_of_two n ∧
      (∀ j, n ≤ 2 ^ j → next_power_of_two n ≤ 2 ^ j) ∧
      ((∃ k, n = 2 ^ k) → next_power_of_two n = n) ∧
      (∀ allocator ring, zix_ring_new allocator n = some ring →
        ring.size = next_power_of_two n ∧ ring.size_mask = next_power_of_two n - 1 ∧
          zix_ring_capacity ring = next_power_of_two n - 1) ∧
      (∀ allocator : ZixAllocator, allocator.malloc sizeof_ZixRing ≠ none →
        allocator.malloc (next_power_of_two n) ≠ none →
          (zix_ring_new allocator n).isSome = true) := by
  have h2' : n ≤ 2147483648 := by norm_num at h2; exact h2
  have hp := next_power_of_two_eq n h1 h2'
  have hge : n ≤ next_power_of_two n := by
    rw [hp]; have := Nat.lt_size_self (n - 1); omega
  have hleast : ∀ j, n ≤ 2 ^ j → next_power_of_two n ≤ 2 ^ j := by
    intro j hj
    rw [hp]
    exact Nat.pow_le_pow_right (by decide) (Nat.size_le.mpr (by omega))
  refine ⟨⟨_, hp⟩, hge, hleast, ?_, ?_, fun a => zix_ring_new_isSome a n⟩
  · rintro ⟨k, hk⟩
    have := hleast k (by omega)
    omega
  · intro allocator ring h
    have hA := zix_ring_new_allocated h1 h2' h
    obtain ⟨-, -, hs, -, -⟩ := zix_ring_new_some h
    rw [capacity_eq hA.1, hA.1.2.1, hs]
    exact ⟨rfl, rfl, rfl⟩

theorem next_power_of_two_least_witness :
    (1 ≤ 5 ∧ 5 ≤ 2 ^ 31) ∧ (∃ k, next_power_of_two 5 = 2 ^ k) ∧ 5 ≤ next_power_of_two 5 ∧
      (∀ j, 5 ≤ 2 ^ j → next_power_of_two 5 ≤ 2 ^ j) :=
  ⟨by decide, (next_power_of_two_least 5 (by decide) (by decide)).1,
    (next_power_of_two_least 5 (by decide) (by decide)).2.1,
    (next_power_of_two_least 5 (by decide) (by decide)).2.2.1⟩

/-- C7: a ring is empty right after construction and right after reset.  A ring
returned by `zix_ring_new` for a request in `1 .. 2 ^ 31`, and the result of
`zix_ring_reset` on a well-formed ring, have both heads at 0, read space 0 and
write space equal to the capacity; `zix_ring_reset` keeps `size`, `size_mask`
and the buffer. -/
theorem new_and_reset_empty :
    (∀ (allocator : ZixAllocator) (n : Nat) (ring : ZixRing), 1 ≤ n → n ≤ 2 ^ 31 →
      zix_ring_new allocator n = some ring →
        ring.read_head = 0 ∧ ring.write_head = 0 ∧ zix_ring_read_space ring = 0 ∧
          zix_ring_write_space ring = zix_ring_capacity ring) ∧
    (∀ ring : ZixRing, WellFormed ring →
      (zix_ring_reset ring).read_head = 0 ∧ (zix_ring_reset ring).write_head = 0 ∧
        zix_ring_read_space (zix_ring_reset ring) = 0 ∧
        zix_ring_write_space (zix_ring_reset ring) = zix_ring_capacity (zix_ring_reset ring) ∧
        (zix_ring_reset ring).size = ring.size ∧
        (zix_ring_reset ring).size_mask = ring.size_mask ∧
        (zix_ring_reset ring).buf = ring.buf) := by
  constructor
  · intro allocator n ring h1 h2 h
    have hA := zix_ring_new_allocated h1 (by norm_num at h2; exact h2) h
    obtain ⟨hw, hr, -, -, -⟩ := zix_ring_new_some h
    rw [read_space_eq hA.1, write_space_eq hA.1, capacity_eq hA.1, hw, hr]
    simp
  · intro ring h
    have h' : WellFormed (zix_ring_reset ring) := by
      obtain ⟨h0, -, -, -⟩ := h.bounds
      exact ⟨h.1, h.2.1, h0, h0⟩
    rw [read_space_eq h', write_space_eq h', capacity_eq h']
    simp [zix_ring_reset]

theorem new_and_reset_empty_witness :
    ((1 ≤ 5 ∧ 5 ≤ 2 ^ 31 ∧ zix_ring_new zeroAllocator 5 = some ⟨0, 0, 8, 7, [0, 0, 0, 0, 0, 0, 0, 0]⟩) ∧
      zix_ring_write_space ⟨0, 0, 8, 7, [0, 0, 0, 0, 0, 0, 0, 0]⟩ =
        zix_ring_capacity ⟨0, 0, 8, 7, [0, 0, 0, 0, 0, 0, 0, 0]⟩) ∧
    (WellFormed sampleRing ∧ zix_ring_read_space (zix_ring_reset sampleRing) = 0) :=
  ⟨⟨by decide, (new_and_reset_empty.1 zeroAllocator 5 _ (by decide) (by decide) (by decide)).2.2.2⟩,
    by decide, (new_and_reset_empty.2 sampleRing (by decide)).2.2.1⟩

/-! ## Memory copies -/

theorem length_memcpy (dst : List Nat) (d : Nat) (src : List Nat) (s n : Nat) :
    (memcpy dst d src s n).length = dst.length := by
  induction n with
  | zero => rfl
  | succ n ih => simp [memcpy, ih]

/-- Byte `i` after a copy: a copied byte inside the destination window, the old
byte outside. -/
theorem getElem?_memcpy (dst : List Nat) (d : Nat) (src : List Nat) (s n i : Nat) :
    (memcpy dst d src s n)[i]? =
      if d ≤ i ∧ i < d + n ∧ i < dst.length then some (src.getD (s + (i - d)) 0)
      else dst[i]? := by
  induction n with
  | zero =>
    rw [if_neg (by omega)]; rfl
  | succ n ih =>
    simp only [memcpy]
    rw [List.getElem?_set, length_memcpy, ih]
    by_cases h1 : d + n = i
    · rw [if_pos h1]
      by_cases h2 : i < dst.length
      · rw [if_pos (by omega), if_pos ⟨by omega, by omega, h2⟩]
        congr 2; omega
      · rw [if_neg (by omega), if_neg (by omega)]
        exact (List.getElem?_eq_none (by omega)).symm
    · rw [if_neg h1]
      by_cases h3 : d ≤ i ∧ i < d + n ∧ i < dst.length
      · rw [if_pos h3, if_pos ⟨h3.1, by omega, h3.2.2⟩]
      · rw [if_neg h3, if_neg (by omega)]

/-- A list that starts with `n` computed bytes and continues like `dst`. -/
theorem getElem?_window (f : Nat → Nat) (n : Nat) (dst : List Nat) (i : Nat) :
    ((List.range n).map f ++ dst.drop n)[i]? = if i < n then some (f i) else dst[i]? := by
  by_cases h : i < n
  · rw [if_pos h, List.getElem?_append_left (by simpa using h)]
    simp [h]
  · rw [if_neg h, List.getElem?_append_right (by simpa using h)]
    simp only [List.length_map, List.length_range, List.getElem?_drop]
    congr 1; omega

theorem content_take {ring : ZixRing} {n : Nat} (hn : n ≤ zix_ring_read_space ring) :
    (content ring).take n =
      (List.range n).map (fun i => ring.buf.getD ((ring.read_head + i) % ring.size) 0) := by
  unfold content
  rw [← List.map_take, List.take_range, Nat.min_eq_left hn]

theorem length_content (ring : ZixRing) :
    (content ring).length = zix_ring_read_space ring := by
  simp [content]

/-- What a successful `peek_internal` leaves in `dst`: the first `n` bytes of the
content, then the untouched rest of `dst`. -/
theorem peek_internal_ok {ring : ZixRing} (h : WellFormed ring) {n : Nat} (dst : List Nat)
    (hn : n ≤ zix_ring_read_space ring) (hd : n ≤ dst.length) :
    peek_internal ring ring.read_head ring.write_head n dst =
      (n, (content ring).take n ++ dst.drop n) := by
  obtain ⟨h0, h31, hr, hw⟩ := h.bounds
  have hrs := read_space_eq h
  have hlt : zix_ring_read_space ring < ring.size := by rw [hrs]; split <;> omega
  unfold zix_ring_read_space at hn hlt
  unfold peek_internal
  rw [if_neg (by omega)]
  have ha : add32 ring.read_head n = ring.read_head + n := by unfold add32; omega
  rw [ha, content_take hn]
  by_cases hb : ring.read_head + n < ring.size
  · rw [if_pos hb]
    congr 1
    apply List.ext_getElem?
    intro i
    rw [getElem?_memcpy, getElem?_window]
    by_cases hi : i < n
    · rw [if_pos ⟨by omega, by omega, by omega⟩, if_pos hi, Nat.mod_eq_of_lt (by omega)]
      congr 2
    · rw [if_neg (by omega), if_neg hi]
  · rw [if_neg hb]
    have hf : sub32 ring.size ring.read_head = ring.size - ring.read_head := by
      unfold sub32; omega
    have hs : sub32 n (ring.size - ring.read_head) = n - (ring.size - ring.read_head) := by
      unfold sub32; omega
    simp only [hf, hs]
    congr 1
    apply List.ext_getElem?
    intro i
    rw [getElem?_memcpy, getElem?_memcpy, length_memcpy, getElem?_window]
    by_cases hi : i < n
    · rw [if_pos hi, mod_lt_two_mul (show ring.read_head + i < 2 * ring.size by omega)]
      by_cases hi2 : i < ring.size - ring.read_head
      · rw [if_neg (by omega), if_pos ⟨by omega, by omega, by omega⟩, if_pos (by omega)]
        congr 2
      · rw [if_pos ⟨by omega, by omega, by omega⟩, if_neg (by omega)]
        congr 2; omega
    · rw [if_neg (by omega), if_neg (by omega), if_neg hi]

/-- An unsuccessful `peek_internal` returns 0 and leaves `dst` alone. -/
theorem peek_internal_fail {ring : ZixRing} {n : Nat} (dst : List Nat)
    (hn : zix_ring_read_space ring < n) :
    peek_internal ring ring.read_head ring.write_head n dst = (0, dst) := by
  unfold zix_ring_read_space at hn
  unfold peek_internal
  rw [if_pos hn]

/-- The return value of `peek_internal` when the space check passes. -/
theorem peek_internal_ret {ring : ZixRing} {n : Nat} (dst : List Nat)
    (hn : ¬ zix_ring_read_space ring < n) :
    (peek_internal ring ring.read_head ring.write_head n dst).1 = n := by
  unfold zix_ring_read_space at hn
  unfold peek_internal
  rw [if_neg hn]
  split <;> rfl

/-! ## All-or-nothing transfers -/

/-- A write that does not fit returns 0 and hands back the ring as it was. -/
theorem zix_ring_write_fail {ring : ZixRing} {n : Nat} (src : List Nat)
    (hs : zix_ring_write_space ring < n) :
    zix_ring_write ring src n = { ring := ring, ret := 0 } := by
  unfold zix_ring_write_space at hs
  simp only [zix_ring_write, if_pos hs]

/-- A write that fits returns its size. -/
theorem zix_ring_write_ret {ring : ZixRing} {n : Nat} (src : List Nat)
    (hs : ¬ zix_ring_write_space ring < n) :
    (zix_ring_write ring src n).ret = n := by
  unfold zix_ring_write_space at hs
  simp only [zix_ring_write, if_neg hs]
  split <;> rfl

/-- C3: `zix_ring_write` is all-or-nothing.  On a well-formed ring, when the
write space is below `n` the call returns 0 and the ring (write head, read head,
every byte of the buffer) is unchanged; otherwise it returns `n`.  Either way
the return value is 0 or `n`. -/
theorem write_all_or_nothing (ring : ZixRing) (src : List Nat) (n : Nat)
    (h : WellFormed ring) :
    (zix_ring_write_space ring < n →
      (zix_ring_write ring src n).ret = 0 ∧
        (zix_ring_write ring src n).ring.write_head = ring.write_head ∧
        (zix_ring_write ring src n).ring.read_head = ring.read_head ∧
        (zix_ring_write ring src n).ring.buf = ring.buf ∧
        (zix_ring_write ring src n).ring = ring) ∧
      (¬ zix_ring_write_space ring < n → (zix_ring_write ring src n).ret = n) ∧
      ((zix_ring_write ring src n).ret = 0 ∨ (zix_ring_write ring src n).ret = n) := by
  have _ := h
  by_cases hs : zix_ring_write_space ring < n
  · rw [zix_ring_write_fail src hs]
    exact ⟨fun _ => ⟨rfl, rfl, rfl, rfl, rfl⟩, fun hc => absurd hs hc, Or.inl rfl⟩
  · exact ⟨fun hc => absurd hc hs, fun _ => zix_ring_write_ret src hs,
      Or.inr (zix_ring_write_ret src hs)⟩

theorem write_all_or_nothing_witness :
    WellFormed sampleRing ∧
      (zix_ring_write sampleRing [1, 2, 3] 3).ret = 0 ∧
      (zix_ring_write sampleRing [1, 2, 3] 3).ring = sampleRing ∧
      (zix_ring_write sampleRing [1, 2] 2).ret = 2 :=
  ⟨by decide,
    ((write_all_or_nothing sampleRing [1, 2, 3] 3 (by decide)).1 (by decide)).1,
    ((write_all_or_nothing sampleRing [1, 2, 3] 3 (by decide)).1 (by decide)).2.2.2.2,
    (write_all_or_nothing sampleRing [1, 2] 2 (by decide)).2.1 (by decide)⟩

/-- C4: `zix_ring_peek`, `zix_ring_read` and `zix_ring_skip` are all-or-nothing.
On a well-formed ring, when the read space is below `n` each of them returns 0
and leaves the ring (read head, write head, buffer) and `dst` unchanged;
otherwise each returns `n`.  On an empty ring every request of at least one
byte returns 0. -/
theorem consumer_all_or_nothing (ring : ZixRing) (dst : List Nat) (n : Nat)
    (h : WellFormed ring) :
    (zix_ring_read_space ring < n →
      ((zix_ring_peek ring dst n).ret = 0 ∧ (zix_ring_peek ring dst n).ring = ring ∧
        (zix_ring_peek ring dst n).dst = dst) ∧
      ((zix_ring_read ring dst n).ret = 0 ∧ (zix_ring_read ring dst n).ring = ring ∧
        (zix_ring_read ring dst n).dst = dst) ∧
      ((zix_ring_skip ring n).ret = 0 ∧ (zix_ring_skip ring n).ring = ring)) ∧
    (¬ zix_ring_read_space ring < n →
      (zix_ring_peek ring dst n).ret = n ∧ (zix_ring_read ring dst n).ret = n ∧
        (zix_ring_skip ring n).ret = n) ∧
    (ring.read_head = ring.write_head → 1 ≤ n →
      (zix_ring_peek ring dst n).ret = 0 ∧ (zix_ring_read ring dst n).ret = 0 ∧
        (zix_ring_skip ring n).ret = 0) := by
  have fail : zix_ring_read_space ring < n →
      ((zix_ring_peek ring dst n).ret = 0 ∧ (zix_ring_peek ring dst n).ring = ring ∧
        (zix_ring_peek ring dst n).dst = dst) ∧
      ((zix_ring_read ring dst n).ret = 0 ∧ (zix_ring_read ring dst n).ring = ring ∧
        (zix_ring_read ring dst n).dst = dst) ∧
      ((zix_ring_skip ring n).ret = 0 ∧ (zix_ring_skip ring n).ring = ring) := by
    intro hs
    have hp := peek_internal_fail dst hs
    refine ⟨?_, ?_, ?_⟩
    · simp only [zix_ring_peek, hp, and_self]
    · simp [zix_ring_read, hp]
    · unfold zix_ring_read_space at hs
      simp only [zix_ring_skip, if_pos hs, and_self]
  refine ⟨fail, fun hs => ?_, fun he h1 => ?_⟩
  · have hp := peek_internal_ret dst hs
    refine ⟨?_, ?_, ?_⟩
    · simp only [zix_ring_peek, hp]
    · unfold zix_ring_read
      simp only [hp]
      split
      · rfl
      · rename_i hz
        simp only [ne_eq, not_not] at hz
        exact hz.symm
    · unfold zix_ring_read_space at hs
      simp only [zix_ring_skip, if_neg hs]
  · have hz : zix_ring_read_space ring = 0 := by
      rw [read_space_eq h, he]; simp
    obtain ⟨a, b, c⟩ := fail (by omega)
    exact ⟨a.1, b.1, c.1⟩

theorem consumer_all_or_nothing_witness :
    WellFormed sampleRing ∧
      (zix_ring_read sampleRing [0, 0, 0, 0, 0, 0] 6).ret = 0 ∧
      (zix_ring_read sampleRing [0, 0, 0, 0, 0, 0] 6).ring = sampleRing ∧
      (zix_ring_read sampleRing [0, 0, 0, 0, 0, 0] 5).ret = 5 :=
  ⟨by decide,
    ((consumer_all_or_nothing sampleRing [0, 0, 0, 0, 0, 0] 6 (by decide)).1 (by decide)).2.1.1,
    ((consumer_all_or_nothing sampleRing [0, 0, 0, 0, 0, 0] 6 (by decide)).1 (by decide)).2.1.2.1,
    ((consumer_all_or_nothing sampleRing [0, 0, 0, 0, 0, 0] 5 (by decide)).2.1 (by decide)).2.1⟩

/-- C5: `zix_ring_peek` is pure.  On a well-formed ring it leaves read head,
write head and buffer unchanged; a second peek of the same `n` (into any block
of at least `n` bytes) returns the same count and the same bytes, and into the
same block it returns the same result altogether; and when `n` is within the
read space, the bytes peek copies out are the bytes a following `zix_ring_read`
of the same `n` copies out. -/
theorem peek_pure (ring : ZixRing) (dst dst2 : List Nat) (n : Nat) (h : WellFormed ring)
    (hd : n ≤ dst.length) (hd2 : n ≤ dst2.length) :
    ((zix_ring_peek ring dst n).ring.read_head = ring.read_head ∧
      (zix_ring_peek ring dst n).ring.write_head = ring.write_head ∧
      (zix_ring_peek ring dst n).ring.buf = ring.buf ∧
      (zix_ring_peek ring dst n).ring = ring) ∧
    ((zix_ring_peek (zix_ring_peek ring dst n).ring dst2 n).ret = (zix_ring_peek ring dst n).ret ∧
      (zix_ring_peek (zix_ring_peek ring dst n).ring dst2 n).dst.take
          (zix_ring_peek (zix_ring_peek ring dst n).ring dst2 n).ret =
        (zix_ring_peek ring dst n).dst.take (zix_ring_peek ring dst n).ret) ∧
    zix_ring_peek (zix_ring_peek ring dst n).ring (zix_ring_peek ring dst n).dst n =
      zix_ring_peek ring dst n ∧
    (n ≤ zix_ring_read_space ring →
      (zix_ring_peek ring dst n).ret = n ∧
      (zix_ring_read (zix_ring_peek ring dst n).ring dst2 n).dst.take n =
        (zix_ring_peek ring dst n).dst.take n ∧
      (zix_ring_peek ring dst n).dst.take n = (content ring).take n) := by
  have hring : (zix_ring_peek ring dst n).ring = ring := rfl
  have htake : ∀ d : List Nat, n ≤ zix_ring_read_space ring →
      ((content ring).take n ++ d.drop n).take n = (content ring).take n := by
    intro d hn
    rw [List.take_append_of_le_length (by simp [length_content]; omega), List.take_take,
      Nat.min_self]
  rw [hring]
  refine ⟨⟨rfl, rfl, rfl, rfl⟩, ?_, ?_, ?_⟩
  · by_cases hs : zix_ring_read_space ring < n
    · simp [zix_ring_peek, peek_internal_fail _ hs]
    · simp only [zix_ring_peek, peek_internal_ok h _ (Nat.le_of_not_lt hs) hd,
        peek_internal_ok h _ (Nat.le_of_not_lt hs) hd2, htake _ (Nat.le_of_not_lt hs),
        and_self]
  · by_cases hs : zix_ring_read_space ring < n
    · simp [zix_ring_peek, peek_internal_fail _ hs]
    · have hn := Nat.le_of_not_lt hs
      have hl : n ≤ ((content ring).take n ++ dst.drop n).length := by
        simp [length_content]; omega
      simp only [zix_ring_peek, peek_internal_ok h _ hn hd, peek_internal_ok h _ hn hl, htake _ hn]
      rw [List.drop_append_of_le_length (by simp [length_content]; omega)]
      simp [length_content, Nat.min_eq_left hn]
  · intro hn
    have hread : (zix_ring_read ring dst2 n).dst = (content ring).take n ++ dst2.drop n := by
      unfold zix_ring_read
      simp only [peek_internal_ok h _ hn hd2]
      split <;> rfl
    refine ⟨?_, ?_, ?_⟩
    · simp only [zix_ring_peek, peek_internal_ok h _ hn hd]
    · rw [hread]
      simp only [zix_ring_peek, peek_internal_ok h _ hn hd, htake _ hn]
    · simp only [zix_ring_peek, peek_internal_ok h _ hn hd, htake _ hn]

theorem peek_pure_witness :
    (WellFormed sampleRing ∧ 3 ≤ [0, 0, 0].length ∧ 3 ≤ [9, 9, 9, 9].length) ∧
      (zix_ring_peek sampleRing [0, 0, 0] 3).ring = sampleRing ∧
      (zix_ring_peek sampleRing [0, 0, 0] 3).dst.take 3 = [15, 16, 17] ∧
      (zix_ring_read sampleRing [9, 9, 9, 9] 3).dst.take 3 = [15, 16, 17] :=
  ⟨by decide,
    (peek_pure sampleRing [0, 0, 0] [9, 9, 9, 9] 3 (by decide) (by decide) (by decide)).1.2.2.2,
    by
      have e := ((peek_pure sampleRing [0, 0, 0] [9, 9, 9, 9] 3 (by decide) (by decide)
        (by decide)).2.2.2 (by decide)).2.2
      rw [e]; decide,
    by
      have e := ((peek_pure sampleRing [0, 0, 0] [9, 9, 9, 9] 3 (by decide) (by decide)
        (by decide)).2.2.2 (by decide)).2
      rw [show (zix_ring_read sampleRing [9, 9, 9, 9] 3).dst.take 3 =
        (zix_ring_peek sampleRing [0, 0, 0] 3).dst.take 3 from e.1, e.2]; decide⟩

/-! ## Effect of a transfer on the content -/

/-- The ring after a write that fits: only the write head and the buffer change;
the write head advances by `n` modulo `size`; the `n` buffer positions starting
at the old write head (modulo `size`) take the bytes of `src`, in order. -/
theorem zix_ring_write_ok {ring : ZixRing} (hA : Allocated ring) (src : List Nat) {n : Nat}
    (hn : n ≤ zix_ring_write_space ring) :
    (zix_ring_write ring src n).ring.read_head = ring.read_head ∧
    (zix_ring_write ring src n).ring.size = ring.size ∧
    (zix_ring_write ring src n).ring.size_mask = ring.size_mask ∧
    (zix_ring_write ring src n).ring.write_head =
      (if ring.write_head + n < ring.size then ring.write_head + n
       else ring.write_head + n - ring.size) ∧
    (zix_ring_write ring src n).ring.buf.length = ring.size ∧
    ∀ p, (zix_ring_write ring src n).ring.buf[p]? =
      if p < ring.size ∧
          (if ring.write_head ≤ p then p - ring.write_head
           else p + ring.size - ring.write_head) < n
      then some (src.getD (if ring.write_head ≤ p then p - ring.write_head
        else p + ring.size - ring.write_head) 0)
      else ring.buf[p]? := by
  obtain ⟨h, hlen⟩ := hA
  obtain ⟨h0, h31, hr, hw⟩ := h.bounds
  have hws := write_space_eq h
  have hlt : zix_ring_write_space ring < ring.size := by rw [hws]; split <;> omega
  unfold zix_ring_write_space at hn hlt
  have ha : add32 ring.write_head n = ring.write_head + n := by unfold add32; omega
  unfold zix_ring_write
  simp only [if_neg (show ¬ write_space_internal ring ring.read_head ring.write_head < n by omega),
    ha]
  by_cases hb : ring.write_head + n ≤ ring.size
  · simp only [if_pos hb, h.land_mask, length_memcpy]
    refine ⟨trivial, trivial, trivial, ?_, hlen, fun p => ?_⟩
    · rw [mod_lt_two_mul (by omega)]
    · rw [getElem?_memcpy, hlen]
      split_ifs <;> first | rfl | omega | (congr 2; omega)
  · have hf : sub32 ring.size ring.write_head = ring.size - ring.write_head := by
      unfold sub32; omega
    have hs : sub32 n (ring.size - ring.write_head) = n - (ring.size - ring.write_head) := by
      unfold sub32; omega
    simp only [if_neg hb, hf, hs, length_memcpy]
    refine ⟨trivial, trivial, trivial, ?_, hlen, fun p => ?_⟩
    · rw [if_neg (by omega)]; omega
    · rw [getElem?_memcpy, getElem?_memcpy, length_memcpy, hlen]
      split_ifs <;> first | rfl | omega | (congr 2; omega)

/-- Byte `i` of the content. -/
theorem getElem?_content (ring : ZixRing) (i : Nat) :
    (content ring)[i]? =
      if i < zix_ring_read_space ring
      then some (ring.buf[(ring.read_head + i) % ring.size]?.getD 0) else none := by
  unfold content
  rw [List.getElem?_map]
  by_cases h : i < zix_ring_read_space ring
  · rw [if_pos h, List.getElem?_range h, Option.map_some', List.getD_eq_getElem?_getD]
  · rw [if_neg h, List.getElem?_eq_none (by simpa using h)]; rfl

/-- A write that fits keeps the ring allocated and appends its bytes to the
content. -/
theorem content_write {ring : ZixRing} (hA : Allocated ring) (src : List Nat) {n : Nat}
    (hn : n ≤ zix_ring_write_space ring) (hsrc : n ≤ src.length) :
    Allocated (zix_ring_write ring src n).ring ∧
      content (zix_ring_write ring src n).ring = content ring ++ src.take n := by
  obtain ⟨e1, e2, e3, e4, e5, e6⟩ := zix_ring_write_ok hA src hn
  obtain ⟨h, hlen⟩ := hA
  obtain ⟨h0, h31, hr, hw⟩ := h.bounds
  have hws := write_space_eq h
  have hrs := read_space_eq h
  have hW : WellFormed (zix_ring_write ring src n).ring := by
    refine ⟨by rw [e2]; exact h.1, by rw [e2, e3]; exact h.2.1, by rw [e1, e2]; exact hr, ?_⟩
    rw [e2, e4]; rw [hws] at hn; split_ifs at hn ⊢ <;> omega
  have hrs2 := read_space_eq hW
  rw [e1, e2, e4] at hrs2
  have hsum : zix_ring_read_space (zix_ring_write ring src n).ring =
      zix_ring_read_space ring + n := by
    rw [hrs2, hrs]; rw [hws] at hn
    split_ifs at hn ⊢ <;> omega
  refine ⟨⟨hW, by rw [e5, e2]⟩, ?_⟩
  apply List.ext_getElem?
  intro i
  rw [getElem?_content, List.getElem?_append, getElem?_content, length_content, hsum, e1, e2,
    List.getElem?_take]
  have hmod : (ring.read_head + i) % ring.size < ring.size := Nat.mod_lt _ h0
  by_cases hi : i < zix_ring_read_space ring
  · rw [if_pos (by omega), if_pos hi, if_pos hi, e6]
    have hp := mod_lt_two_mul (show ring.read_head + i < 2 * ring.size by
      rw [hrs] at hi; split_ifs at hi <;> omega)
    rw [if_neg]
    rw [hp]
    rw [hrs] at hi; rw [hws] at hn
    split_ifs at hi hn ⊢ <;> omega
  · rw [if_neg hi]
    by_cases hi2 : i < zix_ring_read_space ring + n
    · rw [if_pos hi2, if_pos (by omega), e6]
      have hp := mod_lt_two_mul (show ring.read_head + i < 2 * ring.size by
        rw [hrs] at hi2; rw [hws] at hn; split_ifs at hi2 hn <;> omega)
      have hoff : (if ring.write_head ≤ (ring.read_head + i) % ring.size
          then (ring.read_head + i) % ring.size - ring.write_head
          else (ring.read_head + i) % ring.size + ring.size - ring.write_head) =
            i - zix_ring_read_space ring := by
        rw [hp]
        rw [hrs] at hi hi2 ⊢; rw [hws] at hn
        split_ifs at hi hi2 hn ⊢ <;> omega
      rw [hoff, if_pos ⟨hmod, by omega⟩, Option.getD_some,
        List.getElem?_eq_getElem (show i - zix_ring_read_space ring < src.length by omega),
        List.getD_eq_getElem]
    · rw [if_neg hi2, if_neg (by omega)]

/-- The outcome of a read that fits: the ring stays allocated, the call returns
`n`, the first `n` bytes of `dst` are the first `n` bytes of the content, and
the content loses exactly these bytes. -/
theorem content_read {ring : ZixRing} (hA : Allocated ring) (dst : List Nat) {n : Nat}
    (hn : n ≤ zix_ring_read_space ring) (hd : n ≤ dst.length) :
    Allocated (zix_ring_read ring dst n).ring ∧
      (zix_ring_read ring dst n).ret = n ∧
      (zix_ring_read ring dst n).dst.take n = (content ring).take n ∧
      content (zix_ring_read ring dst n).ring = (content ring).drop n := by
  obtain ⟨h, hlen⟩ := hA
  obtain ⟨h0, h31, hr, hw⟩ := h.bounds
  have hrs := read_space_eq h
  have htake : ((content ring).take n ++ dst.drop n).take n = (content ring).take n := by
    rw [List.take_append_of_le_length (by simp [length_content]; omega), List.take_take,
      Nat.min_self]
  have hpk := peek_internal_ok h dst hn hd
  by_cases hz : n = 0
  · subst hz
    have e : zix_ring_read ring dst 0 = ⟨ring, (content ring).take 0 ++ dst.drop 0, 0⟩ := by
      simp [zix_ring_read, hpk]
    rw [e]
    exact ⟨⟨h, hlen⟩, rfl, by simp, by simp⟩
  · have ha : add32 ring.read_head n = ring.read_head + n := by
      unfold add32; rw [hrs] at hn; split_ifs at hn <;> omega
    have e : zix_ring_read ring dst n =
        ⟨{ ring with read_head := (ring.read_head + n) % ring.size },
          (content ring).take n ++ dst.drop n, n⟩ := by
      simp [zix_ring_read, hpk, hz, h.land_mask, ha]
    rw [e]
    have hW : WellFormed { ring with read_head := (ring.read_head + n) % ring.size } :=
      ⟨h.1, h.2.1, Nat.mod_lt _ h0, hw⟩
    have hrs2 := read_space_eq hW
    simp only [] at hrs2
    have hsub : zix_ring_read_space { ring with read_head := (ring.read_head + n) % ring.size } =
        zix_ring_read_space ring - n := by
      rw [hrs2, mod_lt_two_mul (show ring.read_head + n < 2 * ring.size by
        rw [hrs] at hn; split_ifs at hn <;> omega)]
      rw [hrs] at hn ⊢
      split_ifs at hn ⊢ <;> omega
    refine ⟨⟨hW, hlen⟩, rfl, htake, ?_⟩
    apply List.ext_getElem?
    intro i
    rw [getElem?_content, List.getElem?_drop, getElem?_content, hsub]
    simp only []
    rw [Nat.mod_add_mod, Nat.add_assoc]
    by_cases hi : i < zix_ring_read_space ring - n
    · rw [if_pos hi, if_pos (by omega)]
    · rw [if_neg hi, if_neg (by omega)]

/-- A read that does not fit returns 0 and changes neither the ring nor `dst`. -/
theorem zix_ring_read_fail {ring : ZixRing} {n : Nat} (dst : List Nat)
    (hs : zix_ring_read_space ring < n) :
    zix_ring_read ring dst n = { ring := ring, dst := dst, ret := 0 } := by
  simp [zix_ring_read, peek_internal_fail dst hs]

/-! ## Sequential sessions -/

/-- The session invariant: the ring is allocated, and the bytes accepted so far
are the bytes delivered so far followed by the bytes still in the ring. -/
theorem Session.step_invariant (s : Session) (op : RingOp) (hv : op.Valid)
    (hA : Allocated s.ring) (hinv : s.accepted = s.delivered ++ content s.ring) :
    Allocated (s.step op).ring ∧
      (s.step op).accepted = (s.step op).delivered ++ content (s.step op).ring := by
  cases op with
  | write src n =>
    simp only [Session.step]
    by_cases hs : zix_ring_write_space s.ring < n
    · rw [zix_ring_write_fail src hs]
      simpa using ⟨hA, hinv⟩
    · obtain ⟨hA2, hc⟩ := content_write hA src (Nat.le_of_not_lt hs) hv
      rw [zix_ring_write_ret src hs, hc, hinv, List.append_assoc]
      exact ⟨hA2, rfl⟩
  | read dst n =>
    simp only [Session.step]
    by_cases hs : zix_ring_read_space s.ring < n
    · rw [zix_ring_read_fail dst hs]
      simpa using ⟨hA, hinv⟩
    · obtain ⟨hA2, hret, ht, hc⟩ := content_read hA dst (Nat.le_of_not_lt hs) hv
      rw [hret, ht, hc, hinv, List.append_assoc, List.take_append_drop]
      exact ⟨hA2, rfl⟩

theorem Session.foldl_invariant (ops : List RingOp) :
    ∀ s : Session, (∀ op ∈ ops, op.Valid) → Allocated s.ring →
      s.accepted = s.delivered ++ content s.ring →
      Allocated (ops.foldl Session.step s).ring ∧
        (ops.foldl Session.step s).accepted =
          (ops.foldl Session.step s).delivered ++ content (ops.foldl Session.step s).ring := by
  induction ops with
  | nil => intro s _ hA hinv; exact ⟨hA, hinv⟩
  | cons op ops ih =>
    intro s hv hA hinv
    obtain ⟨hA2, hinv2⟩ := s.step_invariant op (hv op (List.mem_cons_self _ _)) hA hinv
    exact ih (s.step op) (fun o ho => hv o (List.mem_cons_of_mem _ ho)) hA2 hinv2

/-- C1: FIFO stream integrity of sequential use.  For a ring returned by
`zix_ring_new` for a request in `1 .. 2 ^ 31` and any finite sequence of
`zix_ring_write` and `zix_ring_read` calls with arbitrary sizes (each caller
block holding at least the requested number of bytes), the bytes copied out by
the successful reads, concatenated, are the prefix of the same length of the
bytes accepted by the successful writes, concatenated; the rest of the accepted
bytes is exactly what the ring still holds. -/
theorem fifo_stream_integrity (allocator : ZixAllocator) (n : Nat) (ring : ZixRing)
    (ops : List RingOp) (h1 : 1 ≤ n) (h2 : n ≤ 2 ^ 31)
    (hnew : zix_ring_new allocator n = some ring) (hops : ∀ op ∈ ops, op.Valid) :
    (Session.run ring ops).delivered =
        (Session.run ring ops).accepted.take (Session.run ring ops).delivered.length ∧
      (Session.run ring ops).accepted =
        (Session.run ring ops).delivered ++ content (Session.run ring ops).ring := by
  have hA := zix_ring_new_allocated h1 (by norm_num at h2; exact h2) hnew
  obtain ⟨hw, hr, -, -, -⟩ := zix_ring_new_some hnew
  have hempty : content ring = [] := by
    have : zix_ring_read_space ring = 0 := by rw [read_space_eq hA.1, hw, hr]; simp
    simp [content, this]
  obtain ⟨-, hinv⟩ := Session.foldl_invariant ops ⟨ring, [], []⟩ hops hA (by simp [hempty])
  refine ⟨?_, hinv⟩
  unfold Session.run
  rw [hinv, List.take_left']
  rfl

theorem fifo_stream_integrity_witness :
    (1 ≤ 5 ∧ 5 ≤ 2 ^ 31 ∧
      zix_ring_new zeroAllocator 5 = some ⟨0, 0, 8, 7, [0, 0, 0, 0, 0, 0, 0, 0]⟩ ∧
      ∀ op ∈ sampleOps, op.Valid) ∧
    (Session.run ⟨0, 0, 8, 7, [0, 0, 0, 0, 0, 0, 0, 0]⟩ sampleOps).delivered =
      (Session.run ⟨0, 0, 8, 7, [0, 0, 0, 0, 0, 0, 0, 0]⟩ sampleOps).accepted.take
        (Session.run ⟨0, 0, 8, 7, [0, 0, 0, 0, 0, 0, 0, 0]⟩ sampleOps).delivered.length :=
  ⟨by decide,
    (fifo_stream_integrity zeroAllocator 5 ⟨0, 0, 8, 7, [0, 0, 0, 0, 0, 0, 0, 0]⟩ sampleOps
      (by decide) (by decide) (by decide) (by decide)).1⟩

/-! ## Head movement -/

/-- The ring after a write that fits, heads only: the read head, `size` and
`size_mask` stay, the write head advances by `n` modulo `size`. -/
theorem zix_ring_write_heads {ring : ZixRing} (h : WellFormed ring) (src : List Nat) {n : Nat}
    (hn : n ≤ zix_ring_write_space ring) :
    (zix_ring_write ring src n).ring.read_head = ring.read_head ∧
    (zix_ring_write ring src n).ring.size = ring.size ∧
    (zix_ring_write ring src n).ring.size_mask = ring.size_mask ∧
    (zix_ring_write ring src n).ring.write_head = (ring.write_head + n) % ring.size := by
  obtain ⟨h0, h31, hr, hw⟩ := h.bounds
  have hws := write_space_eq h
  have hlt : zix_ring_write_space ring < ring.size := by rw [hws]; split <;> omega
  unfold zix_ring_write_space at hn hlt
  have ha : add32 ring.write_head n = ring.write_head + n := by unfold add32; omega
  unfold zix_ring_write
  simp only [if_neg (show ¬ write_space_internal ring ring.read_head ring.write_head < n by omega),
    ha]
  by_cases hb : ring.write_head + n ≤ ring.size
  · simp only [if_pos hb, h.land_mask]
    exact ⟨trivial, trivial, trivial, trivial⟩
  · have hf : sub32 ring.size ring.write_head = ring.size - ring.write_head := by
      unfold sub32; omega
    have hs : sub32 n (ring.size - ring.write_head) = n - (ring.size - ring.write_head) := by
      unfold sub32; omega
    simp only [if_neg hb, hf, hs]
    refine ⟨trivial, trivial, trivial, ?_⟩
    rw [mod_lt_two_mul (by omega), if_neg (by omega)]; omega

/-- The ring after a read that fits: only the read head moves, by `n` modulo
`size`; the call returns `n`. -/
theorem zix_ring_read_ring {ring : ZixRing} (h : WellFormed ring) (dst : List Nat) {n : Nat}
    (hn : n ≤ zix_ring_read_space ring) :
    (zix_ring_read ring dst n).ring =
        { ring with read_head := (ring.read_head + n) % ring.size } ∧
      (zix_ring_read ring dst n).ret = n := by
  obtain ⟨h0, h31, hr, hw⟩ := h.bounds
  have hrs := read_space_eq h
  have hp := peek_internal_ret dst (show ¬ zix_ring_read_space ring < n by omega)
  have ha : add32 ring.read_head n = ring.read_head + n := by
    unfold add32; rw [hrs] at hn; split_ifs at hn <;> omega
  unfold zix_ring_read
  simp only [hp, ha, h.land_mask]
  by_cases hz : n = 0
  · subst hz
    simp [Nat.mod_eq_of_lt hr]
  · simp [hz]

/-- The ring after a skip that fits: the same as after a read that fits. -/
theorem zix_ring_skip_ok {ring : ZixRing} (h : WellFormed ring) {n : Nat}
    (hn : n ≤ zix_ring_read_space ring) :
    zix_ring_skip ring n =
      { ring := { ring with read_head := (ring.read_head + n) % ring.size }, ret := n } := by
  obtain ⟨h0, h31, hr, hw⟩ := h.bounds
  have hrs := read_space_eq h
  have ha : add32 ring.read_head n = ring.read_head + n := by
    unfold add32; rw [hrs] at hn; split_ifs at hn <;> omega
  unfold zix_ring_read_space at hn
  simp only [zix_ring_skip, if_neg (show ¬ read_space_internal ring ring.read_head
    ring.write_head < n by omega), ha, h.land_mask]

/-- A skip that does not fit returns 0 and hands back the ring as it was. -/
theorem zix_ring_skip_fail {ring : ZixRing} {n : Nat} (hs : zix_ring_read_space ring < n) :
    zix_ring_skip ring n = { ring := ring, ret := 0 } := by
  unfold zix_ring_read_space at hs
  simp only [zix_ring_skip, if_pos hs]

/-- Moving the write head forward by `n` within the write space keeps the ring
well-formed, adds `n` to the read space and takes `n` from the write space. -/
theorem space_after_write {ring : ZixRing} (h : WellFormed ring) (src : List Nat) {n : Nat}
    (hn : n ≤ zix_ring_write_space ring) :
    WellFormed (zix_ring_write ring src n).ring ∧
      zix_ring_read_space (zix_ring_write ring src n).ring = zix_ring_read_space ring + n ∧
      zix_ring_write_space (zix_ring_write ring src n).ring + n = zix_ring_write_space ring := by
  obtain ⟨e1, e2, e3, e4⟩ := zix_ring_write_heads h src hn
  obtain ⟨h0, h31, hr, hw⟩ := h.bounds
  have hws := write_space_eq h
  have hrs := read_space_eq h
  have hW : WellFormed (zix_ring_write ring src n).ring :=
    ⟨by rw [e2]; exact h.1, by rw [e2, e3]; exact h.2.1, by rw [e1, e2]; exact hr,
      by rw [e2, e4]; exact Nat.mod_lt _ h0⟩
  have hrs2 := read_space_eq hW
  have hws2 := write_space_eq hW
  have hm := mod_lt_two_mul (show ring.write_head + n < 2 * ring.size by
    rw [hws] at hn; split_ifs at hn <;> omega)
  rw [e1, e2, e4, hm] at hrs2 hws2
  rw [hrs2, hws2, hrs, hws]
  rw [hws] at hn
  refine ⟨hW, ?_, ?_⟩ <;> split_ifs at hn ⊢ <;> omega

/-- Moving the read head forward by `n` within the read space keeps the ring
well-formed, takes `n` from the read space and adds `n` to the write space. -/
theorem space_after_advance {ring : ZixRing} (h : WellFormed ring) {n : Nat}
    (hn : n ≤ zix_ring_read_space ring) :
    WellFormed { ring with read_head := (ring.read_head + n) % ring.size } ∧
      zix_ring_read_space { ring with read_head := (ring.read_head + n) % ring.size } + n =
        zix_ring_read_space ring ∧
      zix_ring_write_space { ring with read_head := (ring.read_head + n) % ring.size } =
        zix_ring_write_space ring + n := by
  obtain ⟨h0, h31, hr, hw⟩ := h.bounds
  have hws := write_space_eq h
  have hrs := read_space_eq h
  have hW : WellFormed { ring with read_head := (ring.read_head + n) % ring.size } :=
    ⟨h.1, h.2.1, Nat.mod_lt _ h0, hw⟩
  have hrs2 := read_space_eq hW
  have hws2 := write_space_eq hW
  have hm := mod_lt_two_mul (show ring.read_head + n < 2 * ring.size by
    rw [hrs] at hn; split_ifs at hn <;> omega)
  simp only [] at hrs2 hws2
  refine ⟨hW, ?_, ?_⟩
  · rw [hrs2, hrs, hm]; rw [hrs] at hn
    split_ifs at hn ⊢ <;> omega
  · rw [hws2, hws, hm]; rw [hrs] at hn
    split_ifs at hn ⊢ <;> omega

/-- Moving the read head forward by `n` within the read space drops the first
`n` bytes of the content. -/
theorem content_advance {ring : ZixRing} (h : WellFormed ring) {n : Nat}
    (hn : n ≤ zix_ring_read_space ring) :
    content { ring with read_head := (ring.read_head + n) % ring.size } =
      (content ring).drop n := by
  obtain ⟨-, hsub, -⟩ := space_after_advance h hn
  apply List.ext_getElem?
  intro i
  rw [getElem?_content, List.getElem?_drop, getElem?_content]
  simp only []
  rw [Nat.mod_add_mod, Nat.add_assoc]
  by_cases hi : n + i < zix_ring_read_space ring
  · rw [if_pos (by omega), if_pos hi]
  · rw [if_neg (by omega), if_neg hi]

/-! ## Filling, skipping, head updates, frames -/

/-- A write that does not fit, by components. -/
theorem zix_ring_write_refused {ring : ZixRing} {n : Nat} (src : List Nat)
    (hs : zix_ring_write_space ring < n) :
    (zix_ring_write ring src n).ret = 0 ∧ (zix_ring_write ring src n).ring = ring := by
  rw [zix_ring_write_fail src hs]
  exact ⟨rfl, rfl⟩

/-- C11: maximum write then overrun.  On a well-formed empty ring, at whatever
position the two heads meet, a write of exactly `zix_ring_capacity ring`
(`size - 1`) bytes returns `size - 1`; afterwards the write space is 0, the read
space is `size - 1`, and every further write of at least one byte returns 0 and
leaves the ring as it is. -/
theorem max_write_then_overrun (ring : ZixRing) (src src2 : List Nat) (n : Nat)
    (h : WellFormed ring) (he : ring.read_head = ring.write_head) (hn : 1 ≤ n) :
    zix_ring_capacity ring = ring.size - 1 ∧
      (zix_ring_write ring src (zix_ring_capacity ring)).ret = ring.size - 1 ∧
      zix_ring_write_space (zix_ring_write ring src (zix_ring_capacity ring)).ring = 0 ∧
      zix_ring_read_space (zix_ring_write ring src (zix_ring_capacity ring)).ring =
        ring.size - 1 ∧
      (zix_ring_write (zix_ring_write ring src (zix_ring_capacity ring)).ring src2 n).ret = 0 ∧
      (zix_ring_write (zix_ring_write ring src (zix_ring_capacity ring)).ring src2 n).ring =
        (zix_ring_write ring src (zix_ring_capacity ring)).ring := by
  have hcap := capacity_eq h
  have hws : zix_ring_write_space ring = ring.size - 1 := by
    rw [write_space_eq h, he]; simp
  have hrs : zix_ring_read_space ring = 0 := by
    rw [read_space_eq h, he]; simp
  have hfit : zix_ring_capacity ring ≤ zix_ring_write_space ring := by rw [hcap, hws]
  obtain ⟨-, hr2, hw2⟩ := space_after_write h src hfit
  have hret := zix_ring_write_ret src (show ¬ zix_ring_write_space ring <
    zix_ring_capacity ring by omega)
  have hfull : zix_ring_write_space (zix_ring_write ring src (zix_ring_capacity ring)).ring =
      0 := by omega
  have hfilled : zix_ring_read_space (zix_ring_write ring src (zix_ring_capacity ring)).ring =
      ring.size - 1 := by omega
  have hfail := zix_ring_write_refused src2 (show zix_ring_write_space
    (zix_ring_write ring src (zix_ring_capacity ring)).ring < n by omega)
  exact ⟨hcap, hret.trans hcap, hfull, hfilled, hfail.1, hfail.2⟩

theorem max_write_then_overrun_witness :
    (WellFormed ⟨5, 5, 8, 7, [0, 0, 0, 0, 0, 0, 0, 0]⟩ ∧ (5 : Nat) = 5 ∧ 1 ≤ 1) ∧
      (zix_ring_write ⟨5, 5, 8, 7, [0, 0, 0, 0, 0, 0, 0, 0]⟩ [1, 2, 3, 4, 5, 6, 7]
        (zix_ring_capacity ⟨5, 5, 8, 7, [0, 0, 0, 0, 0, 0, 0, 0]⟩)).ret = 8 - 1 ∧
      (zix_ring_write (zix_ring_write ⟨5, 5, 8, 7, [0, 0, 0, 0, 0, 0, 0, 0]⟩ [1, 2, 3, 4, 5, 6, 7]
        (zix_ring_capacity ⟨5, 5, 8, 7, [0, 0, 0, 0, 0, 0, 0, 0]⟩)).ring [9] 1).ret = 0 :=
  ⟨by decide,
    (max_write_then_overrun ⟨5, 5, 8, 7, [0, 0, 0, 0, 0, 0, 0, 0]⟩ [1, 2, 3, 4, 5, 6, 7] [9] 1
      (by decide) rfl (by decide)).2.1,
    (max_write_then_overrun ⟨5, 5, 8, 7, [0, 0, 0, 0, 0, 0, 0, 0]⟩ [1, 2, 3, 4, 5, 6, 7] [9] 1
      (by decide) rfl (by decide)).2.2.2.2.1⟩

/-- C13: head updates.  On a well-formed ring a write of `n` bytes that fits
sets the write head to `(w + n) mod size`, whether it takes the branch that
stores `(w + n) & size_mask` or the wrapping branch that stores
`n - (size - w)`; a read or a skip of `n` bytes that fits sets the read head to
`(r + n) mod size`. -/
theorem head_advance (ring : ZixRing) (src dst : List Nat) (n : Nat) (h : WellFormed ring) :
    (n ≤ zix_ring_write_space ring →
      (zix_ring_write ring src n).ring.write_head = (ring.write_head + n) % ring.size ∧
      (add32 ring.write_head n ≤ ring.size →
        (zix_ring_write ring src n).ring.write_head =
            (add32 ring.write_head n) &&& ring.size_mask ∧
          (add32 ring.write_head n) &&& ring.size_mask =
            (ring.write_head + n) % ring.size) ∧
      (¬ add32 ring.write_head n ≤ ring.size →
        (zix_ring_write ring src n).ring.write_head =
            sub32 n (sub32 ring.size ring.write_head) ∧
          sub32 n (sub32 ring.size ring.write_head) = (ring.write_head + n) % ring.size)) ∧
    (n ≤ zix_ring_read_space ring →
      (zix_ring_read ring dst n).ring.read_head = (ring.read_head + n) % ring.size ∧
      (zix_ring_skip ring n).ring.read_head = (ring.read_head + n) % ring.size) := by
  constructor
  · intro hn
    obtain ⟨-, -, -, e4⟩ := zix_ring_write_heads h src hn
    have hraw : ¬ write_space_internal ring ring.read_head ring.write_head < n := by
      unfold zix_ring_write_space at hn; omega
    refine ⟨e4, fun hb => ?_, fun hb => ?_⟩
    · have e : (zix_ring_write ring src n).ring.write_head =
          (add32 ring.write_head n) &&& ring.size_mask := by
        simp only [zix_ring_write, if_neg hraw, if_pos hb]
      exact ⟨e, by rw [← e, e4]⟩
    · have e : (zix_ring_write ring src n).ring.write_head =
          sub32 n (sub32 ring.size ring.write_head) := by
        simp only [zix_ring_write, if_neg hraw, if_neg hb]
      exact ⟨e, by rw [← e, e4]⟩
  · intro hn
    rw [(zix_ring_read_ring h dst hn).1, zix_ring_skip_ok h hn]
    exact ⟨rfl, rfl⟩

theorem head_advance_witness :
    WellFormed sampleRing ∧ 2 ≤ zix_ring_write_space sampleRing ∧
      5 ≤ zix_ring_read_space sampleRing ∧
      (zix_ring_write sampleRing [1, 2] 2).ring.write_head = (2 + 2) % 8 ∧
      (zix_ring_read sampleRing [0, 0, 0, 0, 0] 5).ring.read_head = (5 + 5) % 8 :=
  ⟨by decide, by decide, by decide,
    ((head_advance sampleRing [1, 2] [0, 0, 0, 0, 0] 2 (by decide)).1 (by decide)).1,
    ((head_advance sampleRing [1, 2] [0, 0, 0, 0, 0] 5 (by decide)).2 (by decide)).1⟩

/-- C14: index ownership as a frame property, for every ring and every request.
`zix_ring_write` keeps the read head; `zix_ring_read` and `zix_ring_skip` keep
the write head and every byte of the buffer; `zix_ring_peek` keeps the whole
ring; and `size` and `size_mask` survive `zix_ring_write`, `zix_ring_read`,
`zix_ring_skip`, `zix_ring_peek` and `zix_ring_reset`.  (The three queries
`zix_ring_read_space`, `zix_ring_write_space` and `zix_ring_capacity` take a
`const` ring and are functions of the ring into numbers; they have no ring to
hand back.) -/
theorem index_ownership (ring : ZixRing) (src dst : List Nat) (n : Nat) :
    (zix_ring_write ring src n).ring.read_head = ring.read_head ∧
    ((zix_ring_read ring dst n).ring.write_head = ring.write_head ∧
      (zix_ring_read ring dst n).ring.buf = ring.buf) ∧
    ((zix_ring_skip ring n).ring.write_head = ring.write_head ∧
      (zix_ring_skip ring n).ring.buf = ring.buf) ∧
    (zix_ring_peek ring dst n).ring = ring ∧
    ((zix_ring_write ring src n).ring.size = ring.size ∧
      (zix_ring_write ring src n).ring.size_mask = ring.size_mask) ∧
    ((zix_ring_read ring dst n).ring.size = ring.size ∧
      (zix_ring_read ring dst n).ring.size_mask = ring.size_mask) ∧
    ((zix_ring_skip ring n).ring.size = ring.size ∧
      (zix_ring_skip ring n).ring.size_mask = ring.size_mask) ∧
    ((zix_ring_reset ring).size = ring.size ∧
      (zix_ring_reset ring).size_mask = ring.size_mask) := by
  refine ⟨?_, ⟨?_, ?_⟩, ⟨?_, ?_⟩, rfl, ⟨?_, ?_⟩, ⟨?_, ?_⟩, ⟨?_, ?_⟩, ⟨rfl, rfl⟩⟩
  all_goals first
    | (simp only [zix_ring_write]; split_ifs <;> rfl)
    | (simp only [zix_ring_read]; split_ifs <;> rfl)
    | (simp only [zix_ring_skip]; split_ifs <;> rfl)

/-! ## Skip, transfers of the content, space accounting, the invariant -/

/-- The ring after a read that fits: well-formed, with `n` bytes less to read
and `n` bytes more to write. -/
theorem space_after_read {ring : ZixRing} (h : WellFormed ring) (dst : List Nat) {n : Nat}
    (hn : n ≤ zix_ring_read_space ring) :
    WellFormed (zix_ring_read ring dst n).ring ∧
      zix_ring_read_space (zix_ring_read ring dst n).ring + n = zix_ring_read_space ring ∧
      zix_ring_write_space (zix_ring_read ring dst n).ring = zix_ring_write_space ring + n := by
  rw [(zix_ring_read_ring h dst hn).1]
  exact space_after_advance h hn

/-- The ring after a skip that fits: well-formed, with `n` bytes less to read
and `n` bytes more to write. -/
theorem space_after_skip {ring : ZixRing} (h : WellFormed ring) {n : Nat}
    (hn : n ≤ zix_ring_read_space ring) :
    WellFormed (zix_ring_skip ring n).ring ∧
      zix_ring_read_space (zix_ring_skip ring n).ring + n = zix_ring_read_space ring ∧
      zix_ring_write_space (zix_ring_skip ring n).ring = zix_ring_write_space ring + n := by
  rw [zix_ring_skip_ok h hn]
  exact space_after_advance h hn

/-- The ring after a skip that fits: allocated, content shortened by `n`. -/
theorem content_skip {ring : ZixRing} (hA : Allocated ring) {n : Nat}
    (hn : n ≤ zix_ring_read_space ring) :
    Allocated (zix_ring_skip ring n).ring ∧ (zix_ring_skip ring n).ret = n ∧
      content (zix_ring_skip ring n).ring = (content ring).drop n := by
  rw [zix_ring_skip_ok hA.1 hn]
  exact ⟨⟨(space_after_advance hA.1 hn).1, hA.2⟩, rfl, content_advance hA.1 hn⟩

/-- Writing one byte into a ring with room appends it to the content. -/
theorem content_write_one {ring : ZixRing} (hA : Allocated ring) (l : List Nat)
    (hc : content ring = l) (x : Nat) (hws : 1 ≤ zix_ring_write_space ring) :
    Allocated (zix_ring_write ring [x] 1).ring ∧
      content (zix_ring_write ring [x] 1).ring = l ++ [x] ∧
      zix_ring_write_space (zix_ring_write ring [x] 1).ring + 1 = zix_ring_write_space ring := by
  obtain ⟨hA1, hc1⟩ := content_write hA [x] hws (by simp)
  obtain ⟨-, -, hw1⟩ := space_after_write hA.1 [x] hws
  refine ⟨hA1, ?_, hw1⟩
  rw [hc1, hc]; rfl

/-- Skipping one byte of a ring that holds `a` then `b`, then reading one byte,
delivers `b`. -/
theorem skip_then_read_second {ring : ZixRing} (hA : Allocated ring) (a b : Nat)
    (dst : List Nat) (hc : content ring = [a, b]) (hd : 1 ≤ dst.length) :
    (zix_ring_skip ring 1).ret = 1 ∧
      (zix_ring_read (zix_ring_skip ring 1).ring dst 1).ret = 1 ∧
      (zix_ring_read (zix_ring_skip ring 1).ring dst 1).dst.take 1 = [b] := by
  have hrs : zix_ring_read_space ring = 2 := by rw [← length_content, hc]; rfl
  obtain ⟨hA1, hret, hc1⟩ := content_skip hA (show 1 ≤ zix_ring_read_space ring by omega)
  obtain ⟨-, hr1, -⟩ := space_after_skip hA.1 (show 1 ≤ zix_ring_read_space ring by omega)
  obtain ⟨-, hret2, ht, -⟩ := content_read hA1 dst
    (show 1 ≤ zix_ring_read_space (zix_ring_skip ring 1).ring by omega) hd
  refine ⟨hret, hret2, ht.trans ?_⟩
  rw [hc1, hc]; rfl

/-- A skip and a read of the same size agree on the ring they leave and on the
count they return. -/
theorem zix_ring_skip_eq_read {ring : ZixRing} (h : WellFormed ring) (dst : List Nat) (n : Nat) :
    (zix_ring_skip ring n).ret = (zix_ring_read ring dst n).ret ∧
      (zix_ring_skip ring n).ring = (zix_ring_read ring dst n).ring := by
  by_cases hs : zix_ring_read_space ring < n
  · rw [zix_ring_skip_fail hs, zix_ring_read_fail dst hs]
    exact ⟨rfl, rfl⟩
  · have hn : n ≤ zix_ring_read_space ring := Nat.le_of_not_lt hs
    obtain ⟨e1, e2⟩ := zix_ring_read_ring h dst hn
    rw [zix_ring_skip_ok h hn, e1, e2]
    exact ⟨rfl, rfl⟩

/-- C12: `zix_ring_skip` is `zix_ring_read` without the copy.  On a well-formed
ring, for every `n`, the two return the same value and leave the same ring
(same read head, write head and buffer).  Hence on an allocated empty ring with
room for two bytes, after writing the byte `a` and then the byte `b`, skipping 1
and reading 1 returns 1 each and delivers `b`. -/
theorem skip_is_read_without_copy (ring : ZixRing) (dst : List Nat) (n : Nat)
    (h : WellFormed ring) :
    (zix_ring_skip ring n).ret = (zix_ring_read ring dst n).ret ∧
      (zix_ring_skip ring n).ring = (zix_ring_read ring dst n).ring ∧
      (zix_ring_skip ring n).ring.read_head = (zix_ring_read ring dst n).ring.read_head ∧
      (zix_ring_skip ring n).ring.write_head = (zix_ring_read ring dst n).ring.write_head ∧
      (zix_ring_skip ring n).ring.buf = (zix_ring_read ring dst n).ring.buf ∧
      (∀ a b : Nat, Allocated ring → ring.read_head = ring.write_head →
        2 ≤ zix_ring_capacity ring → 1 ≤ dst.length →
        (zix_ring_skip (zix_ring_write (zix_ring_write ring [a] 1).ring [b] 1).ring 1).ret = 1 ∧
        (zix_ring_read (zix_ring_skip
          (zix_ring_write (zix_ring_write ring [a] 1).ring [b] 1).ring 1).ring dst 1).ret = 1 ∧
        (zix_ring_read (zix_ring_skip
          (zix_ring_write (zix_ring_write ring [a] 1).ring [b] 1).ring 1).ring dst 1).dst.take 1
            = [b]) := by
  obtain ⟨e1, e2⟩ := zix_ring_skip_eq_read h dst n
  refine ⟨e1, e2, congrArg ZixRing.read_head e2, congrArg ZixRing.write_head e2,
    congrArg ZixRing.buf e2, ?_⟩
  intro a b hA he hcap hd
  have hws : zix_ring_write_space ring = ring.size - 1 := by
    rw [write_space_eq h, he]; simp
  have hempty : content ring = [] := by
    have : zix_ring_read_space ring = 0 := by rw [read_space_eq h, he]; simp
    simp [content, this]
  rw [capacity_eq h] at hcap
  obtain ⟨hA1, hc1, hw1⟩ := content_write_one hA [] hempty a (by omega)
  obtain ⟨hA2, hc2, -⟩ := content_write_one hA1 ([] ++ [a]) hc1 b (by omega)
  exact skip_then_read_second hA2 a b dst hc2 hd

theorem skip_is_read_without_copy_witness :
    WellFormed sampleRing ∧
      (zix_ring_skip sampleRing 3).ret = (zix_ring_read sampleRing [0, 0, 0] 3).ret ∧
      (zix_ring_skip sampleRing 3).ring = (zix_ring_read sampleRing [0, 0, 0] 3).ring ∧
      (Allocated freshRing ∧ freshRing.read_head = freshRing.write_head ∧
        2 ≤ zix_ring_capacity freshRing ∧ 1 ≤ [0].length) ∧
      (zix_ring_read (zix_ring_skip
        (zix_ring_write (zix_ring_write freshRing [97] 1).ring [98] 1).ring 1).ring [0] 1).dst.take 1
          = [98] :=
  ⟨by decide, (skip_is_read_without_copy sampleRing [0, 0, 0] 3 (by decide)).1,
    (skip_is_read_without_copy sampleRing [0, 0, 0] 3 (by decide)).2.1,
    by decide,
    ((skip_is_read_without_copy freshRing [0] 1 (by decide)).2.2.2.2.2 97 98 (by decide)
      (by decide) (by decide) (by decide)).2.2⟩

/-- C16: `zix_btree_iter_is_end i` holds exactly when `i.level` is 0 and
`i.nodes[0]` is null; two iterators that agree on `level` and on `nodes[0]`
get the same answer whatever their other slots hold; and the all-zero
`zix_btree_end_iter` is an end iterator. -/
theorem btree_iter_is_end_iff :
    (∀ i : ZixBTreeIter,
      zix_btree_iter_is_end i = true ↔ i.level = 0 ∧ i.nodes ⟨0, by decide⟩ = none) ∧
    (∀ i j : ZixBTreeIter, i.level = j.level →
      i.nodes ⟨0, by decide⟩ = j.nodes ⟨0, by decide⟩ →
        zix_btree_iter_is_end i = zix_btree_iter_is_end j) ∧
    zix_btree_iter_is_end zix_btree_end_iter = true := by
  refine ⟨fun i => ?_, fun i j hl hn => ?_, rfl⟩
  · simp [zix_btree_iter_is_end, Option.isNone_iff_eq_none]
  · simp only [zix_btree_iter_is_end, hl, hn]

theorem btree_iter_is_end_iff_witness :
    zix_btree_iter_is_end strayEndIter = zix_btree_iter_is_end zix_btree_end_iter ∧
      (zix_btree_iter_is_end sampleIter = true ↔
        sampleIter.level = 0 ∧ sampleIter.nodes ⟨0, by decide⟩ = none) :=
  ⟨btree_iter_is_end_iff.2.1 strayEndIter zix_btree_end_iter rfl rfl,
    btree_iter_is_end_iff.1 sampleIter⟩

/-- C17: write appends and never clobbers unread data.  On an allocated
well-formed ring, for `n` within the write space (and a source block of at least
`n` bytes), after `zix_ring_write` the content is the old content followed by
the first `n` bytes of `src`; no buffer position holding old content changes;
without wrap the bytes sit at `w .. w + n - 1`; with wrap the first `size - w`
bytes sit at `w ..  size - 1` and the remaining `n - (size - w)` at index 0
onwards. -/
theorem write_appends (ring : ZixRing) (src : List Nat) (n : Nat) (hA : Allocated ring)
    (hn : n ≤ zix_ring_write_space ring) (hs : n ≤ src.length) :
    content (zix_ring_write ring src n).ring = content ring ++ src.take n ∧
    (∀ i, i < zix_ring_read_space ring →
      (zix_ring_write ring src n).ring.buf[(ring.read_head + i) % ring.size]? =
        ring.buf[(ring.read_head + i) % ring.size]?) ∧
    (ring.write_head + n ≤ ring.size → ∀ j, j < n →
      (zix_ring_write ring src n).ring.buf[ring.write_head + j]? = src[j]?) ∧
    (ring.size < ring.write_head + n →
      (∀ j, j < ring.size - ring.write_head →
        (zix_ring_write ring src n).ring.buf[ring.write_head + j]? = src[j]?) ∧
      (∀ j, j < n - (ring.size - ring.write_head) →
        (zix_ring_write ring src n).ring.buf[j]? =
          src[ring.size - ring.write_head + j]?)) := by
  obtain ⟨-, -, -, -, -, e6⟩ := zix_ring_write_ok hA src hn
  obtain ⟨h0, h31, hr, hw⟩ := hA.1.bounds
  have hws := write_space_eq hA.1
  have hrs := read_space_eq hA.1
  have hsrc : ∀ k, k < n → src[k]? = some (src.getD k 0) := by
    intro k hk
    rw [List.getElem?_eq_getElem (show k < src.length by omega), List.getD_eq_getElem]
  refine ⟨(content_write hA src hn hs).2, fun i hi => ?_, fun hb j hj => ?_,
    fun hb => ⟨fun j hj => ?_, fun j hj => ?_⟩⟩
  · rw [e6, mod_lt_two_mul (show ring.read_head + i < 2 * ring.size by
      rw [hrs] at hi; split_ifs at hi <;> omega)]
    rw [if_neg]
    rw [hrs] at hi; rw [hws] at hn
    split_ifs at hi hn ⊢ <;> omega
  · rw [e6, hsrc j hj, if_pos (by rw [if_pos (by omega)]; omega), if_pos (by omega)]
    congr 2; omega
  · rw [hws] at hn
    rw [e6, hsrc j (by split_ifs at hn <;> omega),
      if_pos (by rw [if_pos (by omega)]; split_ifs at hn <;> omega), if_pos (by omega)]
    congr 2; omega
  · rw [hws] at hn
    have hjw : ¬ ring.write_head ≤ j := by split_ifs at hn <;> omega
    rw [e6, hsrc _ (show ring.size - ring.write_head + j < n by omega),
      if_pos (by rw [if_neg hjw]; omega), if_neg hjw]
    congr 2; omega

theorem write_appends_witness :
    (Allocated sampleRing ∧ 2 ≤ zix_ring_write_space sampleRing ∧ 2 ≤ [21, 22].length) ∧
      content (zix_ring_write sampleRing [21, 22] 2).ring = content sampleRing ++ [21, 22].take 2 :=
  ⟨by decide, (write_appends sampleRing [21, 22] 2 (by decide) (by decide) (by decide)).1⟩

/-- C18: read delivers the oldest bytes.  On a well-formed ring, for `n` within
the read space (and a destination block of at least `n` bytes), `peek_internal`,
`zix_ring_peek` and `zix_ring_read` put the first `n` bytes of the content, in
order, at the start of `dst` and leave the rest of `dst` alone; without wrap
(`r + n < size`) byte `j` comes from index `r + j`; with wrap the first
`size - r` bytes come from index `r` onwards and the remaining `n - (size - r)`
from index 0 onwards; and after `zix_ring_read` the content is the old content
without its first `n` bytes. -/
theorem read_delivers_oldest (ring : ZixRing) (dst : List Nat) (n : Nat) (h : WellFormed ring)
    (hn : n ≤ zix_ring_read_space ring) (hd : n ≤ dst.length) :
    (peek_internal ring ring.read_head ring.write_head n dst).1 = n ∧
    (peek_internal ring ring.read_head ring.write_head n dst).2.take n = (content ring).take n ∧
    (zix_ring_peek ring dst n).dst = (peek_internal ring ring.read_head ring.write_head n dst).2 ∧
    (zix_ring_read ring dst n).dst = (peek_internal ring ring.read_head ring.write_head n dst).2 ∧
    (peek_internal ring ring.read_head ring.write_head n dst).2.drop n = dst.drop n ∧
    (ring.read_head + n < ring.size → ∀ j, j < n →
      (peek_internal ring ring.read_head ring.write_head n dst).2[j]? =
        some (ring.buf.getD (ring.read_head + j) 0)) ∧
    (ring.size ≤ ring.read_head + n →
      (∀ j, j < ring.size - ring.read_head →
        (peek_internal ring ring.read_head ring.write_head n dst).2[j]? =
          some (ring.buf.getD (ring.read_head + j) 0)) ∧
      (∀ j, j < n - (ring.size - ring.read_head) →
        (peek_internal ring ring.read_head ring.write_head n dst).2[ring.size - ring.read_head + j]? =
          some (ring.buf.getD j 0))) ∧
    content (zix_ring_read ring dst n).ring = (content ring).drop n := by
  obtain ⟨h0, h31, hr, hw⟩ := h.bounds
  have hrs := read_space_eq h
  have hpk := peek_internal_ok h dst hn hd
  have hlen : ((content ring).take n).length = n := by
    rw [List.length_take, length_content]; omega
  have hget : ∀ j, j < n → ((content ring).take n ++ dst.drop n)[j]? =
      some (ring.buf.getD ((ring.read_head + j) % ring.size) 0) := by
    intro j hj
    rw [content_take hn, getElem?_window, if_pos hj]
  have hread : (zix_ring_read ring dst n).dst =
      (peek_internal ring ring.read_head ring.write_head n dst).2 := by
    unfold zix_ring_read
    simp only []
    split <;> rfl
  rw [hpk] at hread ⊢
  simp only []
  refine ⟨trivial, ?_, ?_, hread, ?_, fun hb j hj => ?_,
    fun hb => ⟨fun j hj => ?_, fun j hj => ?_⟩, ?_⟩
  · rw [List.take_append_of_le_length (by omega), List.take_take, Nat.min_self]
  · simp only [zix_ring_peek, hpk]
  · rw [List.drop_append_of_le_length (by omega), List.drop_of_length_le (by omega),
      List.nil_append]
  · rw [hget j hj, Nat.mod_eq_of_lt (by omega)]
  · rw [hget j (by omega), Nat.mod_eq_of_lt (by omega)]
  · rw [hget _ (show ring.size - ring.read_head + j < n by omega),
      mod_lt_two_mul (by rw [hrs] at hn; split_ifs at hn <;> omega), if_neg (by omega)]
    congr 2; omega
  · rw [(zix_ring_read_ring h dst hn).1]
    exact content_advance h hn

theorem read_delivers_oldest_witness :
    (WellFormed sampleRing ∧ 4 ≤ zix_ring_read_space sampleRing ∧ 4 ≤ [0, 0, 0, 0, 0].length) ∧
      (peek_internal sampleRing sampleRing.read_head sampleRing.write_head 4
        [0, 0, 0, 0, 0]).2.take 4 = (content sampleRing).take 4 ∧
      content (zix_ring_read sampleRing [0, 0, 0, 0, 0] 4).ring = (content sampleRing).drop 4 :=
  ⟨by decide,
    (read_delivers_oldest sampleRing [0, 0, 0, 0, 0] 4 (by decide) (by decide) (by decide)).2.1,
    (read_delivers_oldest sampleRing [0, 0, 0, 0, 0] 4 (by decide) (by decide)
      (by decide)).2.2.2.2.2.2.2⟩

/-- Reading space left by a skip of one byte and then a read of one byte on a
ring that holds two bytes. -/
theorem skip_then_read_space {ring : ZixRing} (h : WellFormed ring) (dst : List Nat)
    (hrs : zix_ring_read_space ring = 2) :
    zix_ring_read_space (zix_ring_skip ring 1).ring = 1 ∧
      zix_ring_read_space (zix_ring_read (zix_ring_skip ring 1).ring dst 1).ring = 0 := by
  obtain ⟨hW1, hr1, -⟩ := space_after_skip h (show 1 ≤ zix_ring_read_space ring by omega)
  obtain ⟨-, hr2, -⟩ := space_after_read hW1 dst
    (show 1 ≤ zix_ring_read_space (zix_ring_skip ring 1).ring by omega)
  constructor <;> omega

/-- C19: space accounting.  On a well-formed ring a write of `n` bytes that fits
adds `n` to the read space and takes `n` from the write space; a read or a skip
of `n` bytes that fits takes `n` from the read space and adds `n` to the write
space.  So on an empty ring with room for two bytes, after a write of 2 bytes a
skip of 1 leaves read space 1 and a following read of 1 leaves read space 0. -/
theorem space_accounting (ring : ZixRing) (src dst : List Nat) (n : Nat)
    (h : WellFormed ring) :
    (n ≤ zix_ring_write_space ring →
      (zix_ring_write ring src n).ret = n ∧
      zix_ring_read_space (zix_ring_write ring src n).ring = zix_ring_read_space ring + n ∧
      zix_ring_write_space (zix_ring_write ring src n).ring = zix_ring_write_space ring - n) ∧
    (n ≤ zix_ring_read_space ring →
      ((zix_ring_read ring dst n).ret = n ∧
        zix_ring_read_space (zix_ring_read ring dst n).ring = zix_ring_read_space ring - n ∧
        zix_ring_write_space (zix_ring_read ring dst n).ring = zix_ring_write_space ring + n) ∧
      ((zix_ring_skip ring n).ret = n ∧
        zix_ring_read_space (zix_ring_skip ring n).ring = zix_ring_read_space ring - n ∧
        zix_ring_write_space (zix_ring_skip ring n).ring = zix_ring_write_space ring + n)) ∧
    (ring.read_head = ring.write_head → 2 ≤ zix_ring_capacity ring →
      zix_ring_read_space (zix_ring_skip (zix_ring_write ring src 2).ring 1).ring = 1 ∧
      zix_ring_read_space
        (zix_ring_read (zix_ring_skip (zix_ring_write ring src 2).ring 1).ring dst 1).ring = 0) := by
  refine ⟨fun hn => ?_, fun hn => ⟨?_, ?_⟩, fun he hcap => ?_⟩
  · obtain ⟨-, e1, e2⟩ := space_after_write h src hn
    exact ⟨zix_ring_write_ret src (by omega), e1, by omega⟩
  · obtain ⟨-, e1, e2⟩ := space_after_read h dst hn
    exact ⟨(zix_ring_read_ring h dst hn).2, by omega, e2⟩
  · obtain ⟨-, e1, e2⟩ := space_after_skip h hn
    have hret : (zix_ring_skip ring n).ret = n := by rw [zix_ring_skip_ok h hn]
    exact ⟨hret, by omega, e2⟩
  · have hws : zix_ring_write_space ring = ring.size - 1 := by
      rw [write_space_eq h, he]; simp
    have hrs : zix_ring_read_space ring = 0 := by
      rw [read_space_eq h, he]; simp
    rw [capacity_eq h] at hcap
    obtain ⟨hW, e1, -⟩ := space_after_write h src (show 2 ≤ zix_ring_write_space ring by omega)
    exact skip_then_read_space hW dst (by omega)

theorem space_accounting_witness :
    (WellFormed sampleRing ∧ 2 ≤ zix_ring_write_space sampleRing ∧
        2 ≤ zix_ring_read_space sampleRing) ∧
      zix_ring_read_space (zix_ring_write sampleRing [1, 2] 2).ring =
        zix_ring_read_space sampleRing + 2 ∧
      zix_ring_write_space (zix_ring_read sampleRing [0, 0] 2).ring =
        zix_ring_write_space sampleRing + 2 ∧
      (WellFormed freshRing ∧ freshRing.read_head = freshRing.write_head ∧
        2 ≤ zix_ring_capacity freshRing) ∧
      zix_ring_read_space (zix_ring_skip (zix_ring_write freshRing [1, 2] 2).ring 1).ring = 1 :=
  ⟨by decide,
    ((space_accounting sampleRing [1, 2] [0, 0] 2 (by decide)).1 (by decide)).2.1,
    ((space_accounting sampleRing [1, 2] [0, 0] 2 (by decide)).2.1 (by decide)).1.2.2,
    by decide,
    ((space_accounting freshRing [1, 2] [0] 2 (by decide)).2.2 (by decide) (by decide)).1⟩

/-- Whatever `n` is asked, `zix_ring_write` keeps a well-formed ring well-formed. -/
theorem wellFormed_write {ring : ZixRing} (h : WellFormed ring) (src : List Nat) (n : Nat) :
    WellFormed (zix_ring_write ring src n).ring := by
  by_cases hs : zix_ring_write_space ring < n
  · rw [(zix_ring_write_refused src hs).2]; exact h
  · exact (space_after_write h src (Nat.le_of_not_lt hs)).1

/-- Whatever `n` is asked, `zix_ring_read` keeps a well-formed ring well-formed. -/
theorem wellFormed_read {ring : ZixRing} (h : WellFormed ring) (dst : List Nat) (n : Nat) :
    WellFormed (zix_ring_read ring dst n).ring := by
  by_cases hs : zix_ring_read_space ring < n
  · rw [zix_ring_read_fail dst hs]; exact h
  · exact (space_after_read h dst (Nat.le_of_not_lt hs)).1

/-- Whatever `n` is asked, `zix_ring_skip` keeps a well-formed ring well-formed. -/
theorem wellFormed_skip {ring : ZixRing} (h : WellFormed ring) (n : Nat) :
    WellFormed (zix_ring_skip ring n).ring := by
  by_cases hs : zix_ring_read_space ring < n
  · rw [zix_ring_skip_fail hs]; exact h
  · exact (space_after_skip h (Nat.le_of_not_lt hs)).1

/-- C20: well-formedness (`size` a power of two, `size_mask = size - 1`, both
heads below `size`) is an invariant: every ring `zix_ring_new` returns for a
request in `1 .. 2 ^ 31` is well-formed, and `zix_ring_reset`, `zix_ring_write`,
`zix_ring_peek`, `zix_ring_read` and `zix_ring_skip`, with any argument `n`,
whether the call succeeds or not, turn a well-formed ring into a well-formed
ring. -/
theorem wellFormed_invariant :
    (∀ (allocator : ZixAllocator) (n : Nat) (ring : ZixRing), 1 ≤ n → n ≤ 2 ^ 31 →
      zix_ring_new allocator n = some ring → WellFormed ring) ∧
    (∀ (ring : ZixRing) (src dst : List Nat) (n : Nat), WellFormed ring →
      WellFormed (zix_ring_reset ring) ∧
      WellFormed (zix_ring_write ring src n).ring ∧
      WellFormed (zix_ring_peek ring dst n).ring ∧
      WellFormed (zix_ring_read ring dst n).ring ∧
      WellFormed (zix_ring_skip ring n).ring) := by
  constructor
  · intro allocator n ring h1 h2 hnew
    exact (zix_ring_new_allocated h1 (by norm_num at h2; exact h2) hnew).1
  · intro ring src dst n h
    obtain ⟨h0, -, -, -⟩ := h.bounds
    exact ⟨⟨h.1, h.2.1, h0, h0⟩, wellFormed_write h src n, h, wellFormed_read h dst n,
      wellFormed_skip h n⟩

theorem wellFormed_invariant_witness :
    ((1 ≤ 5 ∧ 5 ≤ 2 ^ 31 ∧ zix_ring_new zeroAllocator 5 = some freshRing) ∧
      WellFormed freshRing) ∧
    (WellFormed sampleRing ∧ WellFormed (zix_ring_write sampleRing [1, 2] 2).ring ∧
      WellFormed (zix_ring_read sampleRing [0, 0, 0, 0, 0, 0] 6).ring) :=
  ⟨⟨by decide, wellFormed_invariant.1 zeroAllocator 5 freshRing (by decide) (by decide)
      (by decide)⟩,
    by decide, (wellFormed_invariant.2 sampleRing [1, 2] [0, 0, 0, 0, 0, 0] 2 (by decide)).2.1,
    (wellFormed_invariant.2 sampleRing [1, 2] [0, 0, 0, 0, 0, 0] 6 (by decide)).2.2.2.1⟩

/-! ## Bounds of the memory accesses -/

/-- The block `peek_internal` leaves in `dst` is what its recorded copies
produce. -/
theorem peek_internal_copyOut (ring : ZixRing) (r w n : Nat) (dst : List Nat) :
    (peek_internal ring r w n dst).2 =
      copyOut ring.buf (peek_internal_copies ring r w n) dst := by
  unfold peek_internal peek_internal_copies copyOut
  split_ifs <;> rfl

/-- The buffer `zix_ring_write` leaves is what its recorded copies produce. -/
theorem zix_ring_write_copyIn (ring : ZixRing) (src : List Nat) (n : Nat) :
    (zix_ring_write ring src n).ring.buf =
      copyIn src (zix_ring_write_copies ring n) ring.buf := by
  simp only [zix_ring_write, zix_ring_write_copies, copyIn]
  split_ifs <;> rfl

/-- Bounds of the copies of `peek_internal` once the space check has passed. -/
theorem peek_internal_bounds {ring : ZixRing} (h : WellFormed ring) {n : Nat}
    (hn : n ≤ zix_ring_read_space ring) :
    ring.read_head + n < 4294967296 ∧
    (∀ c ∈ peek_internal_copies ring ring.read_head ring.write_head n,
      c.InBounds ring.size n) ∧
    ((peek_internal_copies ring ring.read_head ring.write_head n).map Copy.len).sum = n ∧
    (¬ add32 ring.read_head n < ring.size →
      ring.read_head ≤ ring.size ∧ sub32 ring.size ring.read_head = ring.size - ring.read_head ∧
      ring.size - ring.read_head ≤ n ∧
      sub32 n (sub32 ring.size ring.read_head) = n - (ring.size - ring.read_head) ∧
      sub32 ring.size ring.read_head + sub32 n (sub32 ring.size ring.read_head) = n) := by
  obtain ⟨h0, h31, hr, hw⟩ := h.bounds
  have hrs := read_space_eq h
  have hlt : zix_ring_read_space ring < ring.size := by rw [hrs]; split <;> omega
  unfold zix_ring_read_space at hn hlt
  have ha : add32 ring.read_head n = ring.read_head + n := by unfold add32; omega
  have hcheck : ¬ read_space_internal ring ring.read_head ring.write_head < n := by omega
  refine ⟨by omega, ?_, ?_, ?_⟩
  · intro c hc
    unfold peek_internal_copies at hc
    rw [if_neg hcheck, ha] at hc
    by_cases hb : ring.read_head + n < ring.size
    · rw [if_pos hb, List.mem_singleton] at hc
      subst hc
      intro i hi
      simp only [] at hi ⊢
      omega
    · have hf : sub32 ring.size ring.read_head = ring.size - ring.read_head := by
        unfold sub32; omega
      have hs : sub32 n (ring.size - ring.read_head) = n - (ring.size - ring.read_head) := by
        unfold sub32; omega
      rw [if_neg hb] at hc
      simp only [hf, hs, List.mem_cons, List.mem_singleton, List.not_mem_nil, or_false] at hc
      rcases hc with hc | hc <;> subst hc <;> intro i hi <;> simp only [] at hi ⊢ <;> omega
  · unfold peek_internal_copies
    rw [if_neg hcheck, ha]
    by_cases hb : ring.read_head + n < ring.size
    · rw [if_pos hb]; simp
    · have hf : sub32 ring.size ring.read_head = ring.size - ring.read_head := by
        unfold sub32; omega
      have hs : sub32 n (ring.size - ring.read_head) = n - (ring.size - ring.read_head) := by
        unfold sub32; omega
      rw [if_neg hb]
      simp only [hf, hs, List.map_cons, List.map_nil, List.sum_cons, List.sum_nil]
      omega
  · intro hb
    rw [ha] at hb
    have hf : sub32 ring.size ring.read_head = ring.size - ring.read_head := by
      unfold sub32; omega
    have hs : sub32 n (ring.size - ring.read_head) = n - (ring.size - ring.read_head) := by
      unfold sub32; omega
    rw [hf, hs]
    omega

/-- Bounds of the copies of `zix_ring_write` once the space check has passed. -/
theorem zix_ring_write_bounds {ring : ZixRing} (h : WellFormed ring) {n : Nat}
    (hn : n ≤ zix_ring_write_space ring) :
    ring.write_head + n < 4294967296 ∧
    (∀ c ∈ zix_ring_write_copies ring n, c.InBounds ring.size n) ∧
    ((zix_ring_write_copies ring n).map Copy.len).sum = n ∧
    (¬ add32 ring.write_head n ≤ ring.size →
      ring.write_head ≤ ring.size ∧
      sub32 ring.size ring.write_head = ring.size - ring.write_head ∧
      ring.size - ring.write_head ≤ n ∧
      sub32 n (sub32 ring.size ring.write_head) = n - (ring.size - ring.write_head) ∧
      sub32 ring.size ring.write_head + sub32 n (sub32 ring.size ring.write_head) = n) := by
  obtain ⟨h0, h31, hr, hw⟩ := h.bounds
  have hws := write_space_eq h
  have hlt : zix_ring_write_space ring < ring.size := by rw [hws]; split <;> omega
  unfold zix_ring_write_space at hn hlt
  have ha : add32 ring.write_head n = ring.write_head + n := by unfold add32; omega
  have hcheck : ¬ write_space_internal ring ring.read_head ring.write_head < n := by omega
  refine ⟨by omega, ?_, ?_, ?_⟩
  · intro c hc
    simp only [zix_ring_write_copies, if_neg hcheck, ha] at hc
    by_cases hb : ring.write_head + n ≤ ring.size
    · rw [if_pos hb, List.mem_singleton] at hc
      subst hc
      intro i hi
      simp only [] at hi ⊢
      omega
    · have hf : sub32 ring.size ring.write_head = ring.size - ring.write_head := by
        unfold sub32; omega
      have hs : sub32 n (ring.size - ring.write_head) = n - (ring.size - ring.write_head) := by
        unfold sub32; omega
      rw [if_neg hb] at hc
      simp only [hf, hs, List.mem_cons, List.mem_singleton, List.not_mem_nil, or_false] at hc
      rcases hc with hc | hc <;> subst hc <;> intro i hi <;> simp only [] at hi ⊢ <;> omega
  · simp only [zix_ring_write_copies, if_neg hcheck, ha]
    by_cases hb : ring.write_head + n ≤ ring.size
    · rw [if_pos hb]; simp
    · have hf : sub32 ring.size ring.write_head = ring.size - ring.write_head := by
        unfold sub32; omega
      have hs : sub32 n (ring.size - ring.write_head) = n - (ring.size - ring.write_head) := by
        unfold sub32; omega
      rw [if_neg hb]
      simp only [hf, hs, List.map_cons, List.map_nil, List.sum_cons, List.sum_nil]
      omega
  · intro hb
    rw [ha] at hb
    have hf : sub32 ring.size ring.write_head = ring.size - ring.write_head := by
      unfold sub32; omega
    have hs : sub32 n (ring.size - ring.write_head) = n - (ring.size - ring.write_head) := by
      unfold sub32; omega
    rw [hf, hs]
    omega

/-- C21: bounds safety under the invariant.  On a well-formed ring (so `size` is
a power of two at most `2 ^ 31` and both heads are below `size`), for every `n`
that passes the space check: the sum `r + n` of `peek_internal` and the sum
`w + n` of `zix_ring_write` stay below `2 ^ 32`; the memory effect of either
function is that of its recorded `memcpy` calls; every byte such a call touches
lies in `[0, size)` of the ring buffer and in `[0, n)` of the caller's block; the
lengths of the calls add up to `n`; and in the wrapping branch the two chunk
lengths `size - r` (or `size - w`) and `n - (size - r)` (or `n - (size - w)`) are
non-negative, are computed without wrapping, and add up to `n`. -/
theorem bounds_safety (ring : ZixRing) (src dst : List Nat) (n : Nat) (h : WellFormed ring) :
    ring.size ≤ 2 ^ 31 ∧
    (n ≤ zix_ring_read_space ring →
      ring.read_head + n < 2 ^ 32 ∧
      add32 ring.read_head n = ring.read_head + n ∧
      (peek_internal ring ring.read_head ring.write_head n dst).2 =
        copyOut ring.buf (peek_internal_copies ring ring.read_head ring.write_head n) dst ∧
      (∀ c ∈ peek_internal_copies ring ring.read_head ring.write_head n,
        c.InBounds ring.size n) ∧
      ((peek_internal_copies ring ring.read_head ring.write_head n).map Copy.len).sum = n ∧
      (¬ add32 ring.read_head n < ring.size →
        (0 : Int) ≤ (ring.size : Int) - ring.read_head ∧
        ((sub32 ring.size ring.read_head : Nat) : Int) = (ring.size : Int) - ring.read_head ∧
        (0 : Int) ≤ (n : Int) - ((ring.size : Int) - ring.read_head) ∧
        ((sub32 n (sub32 ring.size ring.read_head) : Nat) : Int) =
          (n : Int) - ((ring.size : Int) - ring.read_head) ∧
        sub32 ring.size ring.read_head + sub32 n (sub32 ring.size ring.read_head) = n)) ∧
    (n ≤ zix_ring_write_space ring →
      ring.write_head + n < 2 ^ 32 ∧
      add32 ring.write_head n = ring.write_head + n ∧
      (zix_ring_write ring src n).ring.buf =
        copyIn src (zix_ring_write_copies ring n) ring.buf ∧
      (∀ c ∈ zix_ring_write_copies ring n, c.InBounds ring.size n) ∧
      ((zix_ring_write_copies ring n).map Copy.len).sum = n ∧
      (¬ add32 ring.write_head n ≤ ring.size →
        (0 : Int) ≤ (ring.size : Int) - ring.write_head ∧
        ((sub32 ring.size ring.write_head : Nat) : Int) = (ring.size : Int) - ring.write_head ∧
        (0 : Int) ≤ (n : Int) - ((ring.size : Int) - ring.write_head) ∧
        ((sub32 n (sub32 ring.size ring.write_head) : Nat) : Int) =
          (n : Int) - ((ring.size : Int) - ring.write_head) ∧
        sub32 ring.size ring.write_head + sub32 n (sub32 ring.size ring.write_head) = n)) := by
  obtain ⟨h0, h31, hr, hw⟩ := h.bounds
  refine ⟨by norm_num; exact h31, fun hn => ?_, fun hn => ?_⟩
  · obtain ⟨b1, b2, b3, b4⟩ := peek_internal_bounds h hn
    refine ⟨by norm_num; exact b1, by unfold add32; omega, peek_internal_copyOut _ _ _ _ _,
      b2, b3, fun hb => ?_⟩
    obtain ⟨c1, c2, c3, c4, c5⟩ := b4 hb
    rw [c4, c2] at *
    omega
  · obtain ⟨b1, b2, b3, b4⟩ := zix_ring_write_bounds h hn
    refine ⟨by norm_num; exact b1, by unfold add32; omega, zix_ring_write_copyIn _ _ _,
      b2, b3, fun hb => ?_⟩
    obtain ⟨c1, c2, c3, c4, c5⟩ := b4 hb
    rw [c4, c2] at *
    omega

theorem bounds_safety_witness :
    (WellFormed sampleRing ∧ 5 ≤ zix_ring_read_space sampleRing ∧
        2 ≤ zix_ring_write_space sampleRing) ∧
      (∀ c ∈ peek_internal_copies sampleRing sampleRing.read_head sampleRing.write_head 5,
        c.InBounds sampleRing.size 5) ∧
      (∀ c ∈ zix_ring_write_copies sampleRing 2, c.InBounds sampleRing.size 2) ∧
      peek_internal_copies sampleRing sampleRing.read_head sampleRing.write_head 5 =
        [⟨5, 0, 3⟩, ⟨0, 3, 2⟩] :=
  ⟨by decide,
    ((bounds_safety sampleRing [1, 2] [0, 0, 0, 0, 0] 5 (by decide)).2.1 (by decide)).2.2.2.1,
    ((bounds_safety sampleRing [1, 2] [0, 0, 0, 0, 0] 2 (by decide)).2.2 (by decide)).2.2.2.1,
    by decide⟩

/-! ## Degenerate requests -/

/-- For a request of 0 or above `2 ^ 31`, `next_power_of_two` wraps to 0. -/
theorem next_power_of_two_wraps (n : Nat)
    (h : n = 0 ∨ (2147483648 < n ∧ n < 4294967296)) : next_power_of_two n = 0 := by
  have hlo : 2147483648 ≤ sub32 n 1 := by unfold sub32; omega
  have hhi : sub32 n 1 < 4294967296 := by unfold sub32; omega
  have hsize : (sub32 n 1).size = 32 := by
    apply le_antisymm
    · exact Nat.size_le.mpr (by norm_num; exact hhi)
    · exact Nat.lt_size.mpr (by norm_num; exact hlo)
  unfold next_power_of_two
  simp only []
  rw [smear_eq (sub32 n 1) _ _ _ _ hhi rfl rfl rfl rfl, hsize]
  unfold add32
  norm_num

/-- C22 (amended): degenerate requests.  For a request of 0 and for every
request above `2 ^ 31` (and below `2 ^ 32`), `next_power_of_two` returns 0 by
wraparound, which is not a power of two and, for a non-zero request, is below the
request; every ring `zix_ring_new` then returns has `size = 0`,
`size_mask = 0xFFFFFFFF`, capacity and initial write space `2 ^ 32 - 1`, and a
buffer of 0 bytes; and `zix_ring_new` does return a ring when the allocator
grants both requests. -/
theorem degenerate_request (n : Nat) (h : n = 0 ∨ (2 ^ 31 < n ∧ n < 2 ^ 32)) :
    next_power_of_two n = 0 ∧ (¬ ∃ k, next_power_of_two n = 2 ^ k) ∧
    (0 < n → ¬ n ≤ next_power_of_two n) ∧
    (∀ allocator ring, zix_ring_new allocator n = some ring →
      ring.size = 0 ∧ ring.size_mask = 4294967295 ∧
      zix_ring_capacity ring = 2 ^ 32 - 1 ∧ zix_ring_write_space ring = 2 ^ 32 - 1 ∧
      ring.buf.length = 0) ∧
    (∀ allocator : ZixAllocator, allocator.malloc sizeof_ZixRing ≠ none →
      allocator.malloc 0 ≠ none → (zix_ring_new allocator n).isSome = true) := by
  have h' : n = 0 ∨ (2147483648 < n ∧ n < 4294967296) := by norm_num at h; exact h
  have hz := next_power_of_two_wraps n h'
  have hsub : sub32 0 1 = 4294967295 := by decide
  refine ⟨hz, ?_, fun hpos => by omega, fun allocator ring hnew => ?_, fun allocator h1 h2 => ?_⟩
  · rintro ⟨k, hk⟩
    have := Nat.pos_pow_of_pos k (show 0 < 2 by decide)
    omega
  · obtain ⟨hw, hr, hs, hm, hb⟩ := zix_ring_new_some hnew
    rw [hz] at hs hm hb
    rw [hsub] at hm
    refine ⟨hs, hm, ?_, ?_, hb⟩
    · unfold zix_ring_capacity; rw [hs, hsub]; norm_num
    · unfold zix_ring_write_space write_space_internal
      rw [hw, hr, if_pos rfl, hs, hsub]; norm_num
  · exact zix_ring_new_isSome allocator n h1 (by rw [hz]; exact h2)

theorem degenerate_request_witness :
    ((0 : Nat) = 0 ∨ (2 ^ 31 < 0 ∧ 0 < 2 ^ 32)) ∧ next_power_of_two 0 = 0 ∧
      ((3000000000 : Nat) = 0 ∨ (2 ^ 31 < 3000000000 ∧ 3000000000 < 2 ^ 32)) ∧
      ¬ 3000000000 ≤ next_power_of_two 3000000000 :=
  ⟨Or.inl rfl, (degenerate_request 0 (Or.inl rfl)).1, Or.inr (by decide),
    (degenerate_request 3000000000 (Or.inr (by decide))).2.2.1 (by decide)⟩

/-- C22 as stated fails at the request 0: the value returned, 0, is at least the
request. -/
theorem degenerate_request_counterexample :
    ¬ (next_power_of_two 0 = 0 ∧ (¬ ∃ k, next_power_of_two 0 = 2 ^ k) ∧
      ¬ 0 ≤ next_power_of_two 0) :=
  fun hc => hc.2.2 (Nat.zero_le _)

end Zix
